import Mathlib

/-!
Verification development for `generate_analysis.py` (obsidian-daily-analysis).

The program is shallowly embedded over `List Char` text, integer microsecond
timestamps (naive local datetimes), and association lists for YAML frontmatter
maps and the filesystem.  Each definition is translated from the Python source;
line numbers in doc comments refer to `src/generate_analysis.py`.
-/

set_option autoImplicit false

namespace GenAnalysis

/-- Abbreviation turning a string literal into the `List Char` text model. -/
def toL (s : String) : List Char := s.toList

/-- Python whitespace class used by `str.strip` / `str.lstrip` and the regex
class `\s` (ASCII fragment: space, newline, tab, carriage return, vertical
tab, form feed). -/
def wsChar (c : Char) : Bool :=
  c = ' ' || c = '\n' || c = '\t' || c = '\r' || c = '\x0b' || c = '\x0c'

/-- Python `str.lstrip()`: drop leading whitespace. -/
def lstrip (s : List Char) : List Char := s.dropWhile wsChar

/-- Python `str.rstrip()`: drop trailing whitespace. -/
def rstrip (s : List Char) : List Char := (s.reverse.dropWhile wsChar).reverse

/-- Python `str.strip()`: drop whitespace at both ends. -/
def strip (s : List Char) : List Char := rstrip (lstrip s)

/-- Python `str.endswith(suf)` on the char-list model. -/
def endsList (suf s : List Char) : Bool := suf.reverse.isPrefixOf s.reverse

/-- Python substring test `p in s`. -/
def containsSub (p : List Char) : List Char → Bool
  | [] => p.isPrefixOf []
  | c :: cs => p.isPrefixOf (c :: cs) || containsSub p cs

/-- Python `s.find(p)`: index of the first occurrence (as an `Option`). -/
def findSub (p : List Char) : List Char → Option Nat
  | [] => if p.isPrefixOf [] then some 0 else none
  | c :: cs =>
    if p.isPrefixOf (c :: cs) then some 0
    else (findSub p cs).map (· + 1)

/-- Python `s.rfind(p)`: index of the last occurrence (as an `Option`). -/
def rfindSub (p : List Char) : List Char → Option Nat
  | [] => if p.isPrefixOf [] then some 0 else none
  | c :: cs =>
    match rfindSub p cs with
    | some i => some (i + 1)
    | none => if p.isPrefixOf (c :: cs) then some 0 else none

/-! ## Time model

Naive local datetimes are integers counting microseconds from an arbitrary
local epoch; `datetime.date()` is flooring division by the length of a day. -/

/-- Microseconds in one calendar day. -/
def usPerDay : Int := 86400000000

/-- The calendar date (as a day number) of a microsecond instant, i.e.
`datetime.date()`.  Integer division `/` on `Int` is Euclidean division,
which is floor division here because `usPerDay` is positive. -/
def dateOf (t : Int) : Int := t / usPerDay

/-- The 15-minute cooldown `timedelta(minutes=15)` (lines 133, 184) in
microseconds. -/
def cooldown_period : Int := 900000000

/-! ## Temporal window resolver (lines 59-77)

`dateutil.parser.parse` applied to the CLI override string is modelled by its
outcome: `none` = no override given, `some none` = the string raises
`ValueError` (unparseable), `some (some d)` = it parses to calendar date `d`. -/

/-- `get_previous_day_boundaries` (lines 59-77): resolve the target calendar
date, then return `datetime.combine(target, time.min)` and
`datetime.combine(target, time.max)` — 00:00:00.000000 and 23:59:59.999999 of
that date. `today` is `datetime.now().date()`. -/
def get_previous_day_boundaries (today : Int) (override_date : Option (Option Int)) :
    Int × Int :=
  let target : Int :=
    match override_date with
    | some (some d) => d
    | some none => today - 1
    | none => today - 1
  (target * usPerDay, target * usPerDay + (usPerDay - 1))

/-- Modelled from the spec (§4.2): the target date covered by the window —
the override date when it parses, otherwise the calendar date immediately
preceding the current date. -/
def specTargetDate (today : Int) (override_date : Option (Option Int)) : Int :=
  match override_date with
  | some (some d) => d
  | _ => today - 1

/-- Modelled from the spec (§3, SelectionWindow): an inclusive `[start, end]`
pair spanning one calendar day, 00:00:00.000 to 23:59:59.999999 local time of
the target date. -/
def specWindow (today : Int) (override_date : Option (Option Int)) : Int × Int :=
  (specTargetDate today override_date * usPerDay,
   specTargetDate today override_date * usPerDay + (usPerDay - 1))

/-! ## Selection engine (lines 92-223)

A candidate markdown file is modelled by its stat timestamps plus the outcome
of reading and parsing its frontmatter.  `readable = false` means opening /
reading the file raises (the `except Exception` handlers at lines 157 and
205).  Each date-like field is `none` when absent from the frontmatter or
falsy, `some none` when present but `dateutil` raises
`ValueError`/`TypeError` on it, and `some (some t)` when it parses to the
instant `t`.  A document whose YAML block is malformed gets the empty map
from `parse_frontmatter`, i.e. all fields `none`. -/

structure MdFile where
  name : List Char
  ctime : Int
  mtime : Int
  readable : Bool
  analyzed : Option (Option Int)
  created : Option (Option Int)
  date : Option (Option Int)
  creation_date : Option (Option Int)
  createdAt : Option (Option Int)

/-- One directory yielded by `os.walk`: its path and the regular files in it. -/
structure DirEntry where
  root : List Char
  files : List MdFile

/-- `os.path.join(root, file)` (line 110). -/
def pathOf (root name : List Char) : List Char := root ++ '/' :: name

/-- The excluded-folder check `any(root.startswith(ex) for ex in exclude_folders)`
(line 103). -/
def excludedDir (exclude_folders : List (List Char)) (root : List Char) : Bool :=
  exclude_folders.any (fun ex => ex.isPrefixOf root)

/-- Timestamp-phase decision for a file already known to be in the window
(lines 122-160): unreadable file → include (fail open); no `analyzed` marker →
include; unparseable marker → include; parseable marker at `t` → include iff
`mtime > t + cooldown`. -/
def phase1Include (f : MdFile) : Bool :=
  if f.readable = false then true
  else
    match f.analyzed with
    | some (some t) => decide (f.mtime > t + cooldown_period)
    | some none => true
    | none => true

/-- The frontmatter date fields inspected by the secondary pass, in source
order `['created', 'date', 'creation_date', 'createdAt']` (line 171). -/
def phase2Fields (f : MdFile) : List (Option (Option Int)) :=
  [f.created, f.date, f.creation_date, f.createdAt]

/-- Secondary-pass loop over the frontmatter date fields (lines 171-204),
returning the list of appends it performs.  An absent/falsy field or an
unparseable date is passed over; a parseable date in the window consults the
`analyzed` marker: absent marker → append and `break`; parseable marker →
append and `break` only if the date beats the cooldown; unparseable marker →
append and fall through to the next field (no `break` in the source). -/
def phase2Loop (sb eb : Int) (analyzed : Option (Option Int)) (p : List Char) :
    List (Option (Option Int)) → List (List Char)
  | [] => []
  | none :: rest => phase2Loop sb eb analyzed p rest
  | some none :: rest => phase2Loop sb eb analyzed p rest
  | some (some fmd) :: rest =>
    if dateOf sb ≤ dateOf fmd ∧ dateOf fmd ≤ dateOf eb then
      match analyzed with
      | some (some t) =>
        if fmd > t + cooldown_period then [p] else phase2Loop sb eb analyzed p rest
      | some none => p :: phase2Loop sb eb analyzed p rest
      | none => [p]
    else phase2Loop sb eb analyzed p rest

/-- Per-file body of the scan loop (lines 110-206): phase 1 applies when a
stat timestamp lies in `[sb, eb]`; otherwise, if the path is not already in
the accumulator and the file is readable, the secondary frontmatter-date pass
runs. -/
def selectStep (sb eb : Int) (acc : List (List Char)) (p : List Char) (f : MdFile) :
    List (List Char) :=
  if (sb ≤ f.ctime ∧ f.ctime ≤ eb) ∨ (sb ≤ f.mtime ∧ f.mtime ≤ eb) then
    if phase1Include f then acc ++ [p] else acc
  else if p ∈ acc then acc
  else if f.readable = false then acc
  else acc ++ phase2Loop sb eb f.analyzed p (phase2Fields f)

/-- Inner loop over the files of one directory (lines 106-206); non-`.md`
files are skipped. -/
def fileStep (sb eb : Int) (root : List Char) (acc : List (List Char)) (f : MdFile) :
    List (List Char) :=
  if endsList (toL ".md") f.name then selectStep sb eb acc (pathOf root f.name) f
  else acc

/-- Per-directory step of `os.walk` (lines 101-104): an excluded root is
skipped wholesale. -/
def dirStep (sb eb : Int) (ex : List (List Char)) (acc : List (List Char))
    (d : DirEntry) : List (List Char) :=
  if excludedDir ex d.root then acc
  else d.files.foldl (fileStep sb eb d.root) acc

/-- `find_md_files_from_previous_day` (lines 92-223): fold the walk over the
directory tree, accumulating selected paths in order. -/
def find_md_files_from_previous_day (tree : List DirEntry) (ex : List (List Char))
    (sb eb : Int) : List (List Char) :=
  tree.foldl (dirStep sb eb ex) []

/-! ## Frontmatter codec (lines 243-274)

YAML handling is modelled on the plain-scalar subset the program writes:
a frontmatter map is an ordered association list of key/value texts, dumped
as `key: value` lines (`yaml.dump(..., default_flow_style=False,
sort_keys=False)` keeps insertion order) and loaded back by splitting each
line at the first `": "`. -/

/-- Split a text at the first occurrence of the pattern `p`, dropping the
pattern itself; `none` when `p` does not occur.  This is the lazy-group
mechanism of the regex `^---\n(.*?)\n---\n` and of line splitting. -/
def splitFirst (p : List Char) : List Char → Option (List Char × List Char)
  | [] => none
  | c :: cs =>
    if p.isPrefixOf (c :: cs) then some ([], (c :: cs).drop p.length)
    else
      match splitFirst p cs with
      | some gt => some (c :: gt.1, gt.2)
      | none => none

/-- Split a text into its lines (Python `str.split('\n')` shape). -/
def splitLines : List Char → List (List Char)
  | [] => [[]]
  | c :: rest =>
    if c = '\n' then [] :: splitLines rest
    else
      match splitLines rest with
      | [] => [[c]]
      | l :: ls => (c :: l) :: ls

/-- Load one `key: value` line: split at the first `": "`. -/
def splitColon (l : List Char) : Option (List Char × List Char) :=
  splitFirst (toL ": ") l

/-- Load a block of `key: value` lines; any other line shape is a YAML
error (`none`). -/
def loadLines : List (List Char) → Option (List (List Char × List Char))
  | [] => some []
  | l :: ls =>
    match splitColon l, loadLines ls with
    | some kv, some rest => some (kv :: rest)
    | _, _ => none

/-- Model of `yaml.safe_load(...) or {}` on the plain-scalar subset: the
empty block loads as the empty map, otherwise every line must be
`key: value`. -/
def yamlLoad (g : List Char) : Option (List (List Char × List Char)) :=
  if g = [] then some [] else loadLines (splitLines g)

/-- Model of `yaml.dump(m, default_flow_style=False, sort_keys=False)` on
the plain-scalar subset: one `key: value` line per entry, insertion order,
trailing newline after every line. -/
def yamlDump : List (List Char × List Char) → List Char
  | [] => []
  | (k, v) :: rest => k ++ toL ": " ++ v ++ '\n' :: yamlDump rest

/-- The dumped block without its final newline: this is what the lazy group
of `^---\n(.*?)\n---\n` captures when re-reading a dumped map. -/
def dumpCore : List (List Char × List Char) → List Char
  | [] => []
  | [(k, v)] => k ++ toL ": " ++ v
  | (k, v) :: rest => k ++ toL ": " ++ v ++ '\n' :: dumpCore rest

/-- `parse_frontmatter` (lines 243-255): frontmatter is recognized only when
the document starts with `---\n` and a closing `\n---\n` follows; the lazy
group between them is YAML-loaded.  Any failure returns the empty map and
the original text. -/
def parse_frontmatter (content : List Char) :
    List (List Char × List Char) × List Char :=
  if (toL "---\n").isPrefixOf content then
    match splitFirst (toL "\n---\n") (content.drop 4) with
    | some gt =>
      match yamlLoad gt.1 with
      | some fm => (fm, gt.2)
      | none => ([], content)
    | none => ([], content)
  else ([], content)

/-- Python dict assignment `frontmatter[k] = v`: replace in place when the
key exists, append otherwise. -/
def setKey : List (List Char × List Char) → List Char → List Char →
    List (List Char × List Char)
  | [], k, v => [(k, v)]
  | (k0, v0) :: rest, k, v =>
    if k0 = k then (k0, v) :: rest else (k0, v0) :: setKey rest k v

/-- The serialization half of `update_frontmatter_with_analyzed` (lines
264-273): render the map, then re-attach the body; a body with non-blank
content is `lstrip`ped behind one blank separator line, a blank body is
dropped. -/
def serialize_frontmatter (m : List (List Char × List Char)) (b : List Char) :
    List Char :=
  if strip b ≠ [] then toL "---\n" ++ yamlDump m ++ toL "---\n\n" ++ lstrip b
  else toL "---\n" ++ yamlDump m ++ toL "---\n"

/-- `update_frontmatter_with_analyzed` (lines 257-274): parse, set the
`analyzed` key to the current timestamp text, re-serialize. -/
def update_frontmatter_with_analyzed (now content : List Char) : List Char :=
  serialize_frontmatter
    (setKey (parse_frontmatter content).1 (toL "analyzed") now)
    (parse_frontmatter content).2

/-- Keep only the entries of a map whose key differs from `k`. -/
def removeKey (k : List Char) (m : List (List Char × List Char)) :
    List (List Char × List Char) :=
  m.filter (fun kv => decide (kv.1 ≠ k))

/-- YAML-safety of one frontmatter entry in the plain-scalar model: no
newlines anywhere and no separator pattern inside the key. -/
def yamlSafePair (kv : List Char × List Char) : Prop :=
  '\n' ∉ kv.1 ∧ containsSub (toL ": ") kv.1 = false ∧ '\n' ∉ kv.2

/-! ## Daily-note publisher (lines 637-671)

The section-replacement call is
`re.sub(re.escape(header) + r'.*?(?=\n#|\Z)', header + "\n\n" + analysis,
content, flags=re.DOTALL)`.  Its engine is embedded directly: the lazy group
with lookahead is `lazySplit`, and the scan-and-replace loop is `subSection`
(fuel-indexed so that it stays structurally recursive; the fuel is the text
length, which always suffices because every step consumes at least one
character). -/

/-- The lazy `.*?(?=\n#|\Z)` span: split at the earliest position that is
followed by `\n#`, or at the end of the text. -/
def lazySplit : List Char → List Char × List Char
  | [] => ([], [])
  | c :: cs =>
    if c = '\n' ∧ cs.head? = some '#' then ([], c :: cs)
    else (c :: (lazySplit cs).1, (lazySplit cs).2)

/-- Fuel-indexed engine of the `re.sub` scan: copy characters until the
(non-empty) header `h0 :: htl` matches, there consume the header and its lazy
span, emit `rep`, and continue after the match without rescanning `rep`. -/
def subSectionF (h0 : Char) (htl rep : List Char) : Nat → List Char → List Char
  | _, [] => []
  | 0, s => s
  | fuel + 1, c :: cs =>
    if (h0 :: htl).isPrefixOf (c :: cs) then
      rep ++ subSectionF h0 htl rep fuel (lazySplit ((c :: cs).drop (htl.length + 1))).2
    else c :: subSectionF h0 htl rep fuel cs

/-- The `re.sub` replacement of the analysis section in a document. -/
def subSection (h0 : Char) (htl rep s : List Char) : List Char :=
  subSectionF h0 htl rep s.length s

/-- `append_analysis_to_daily_note` (lines 637-671) restricted to a
non-empty analysis text (an empty one returns early without writing) and a
non-empty header `h0 :: htl`: when the header occurs in the document the
existing section is replaced via `subSection`, otherwise the header and
analysis are appended behind normalized blank-line spacing. -/
def append_analysis (content : List Char) (h0 : Char) (htl analysis : List Char) :
    List Char :=
  if containsSub (h0 :: htl) content = true then
    subSection h0 htl ((h0 :: htl) ++ toL "\n\n" ++ analysis) content
  else if content ≠ [] ∧ endsList (toL "\n\n") content = false then
    if endsList (toL "\n") content = true then
      content ++ toL "\n" ++ (h0 :: htl) ++ toL "\n\n" ++ analysis
    else content ++ toL "\n\n" ++ (h0 :: htl) ++ toL "\n\n" ++ analysis
  else content ++ (h0 :: htl) ++ toL "\n\n" ++ analysis

/-- A file outside the stat-timestamp window with two parseable in-window
frontmatter dates and an unparseable `analyzed` marker. -/
def c2File : MdFile :=
  ⟨toL "note.md", -5, -5, true, some none, some (some 100), some (some 200), none, none⟩

/-! ## JSON values and the LLM-response parser (lines 382-436)

`json.loads` is an external library call; it is abstracted as an arbitrary
total function `loads : text → Option JValue` (`none` = `JSONDecodeError`).
The preprocessing performed on the response text before the call — code-fence
stripping and the array-pattern regex search — is translated from the
source. -/

inductive JValue where
  | null
  | bool (b : Bool)
  | num (n : Int)
  | str (s : List Char)
  | arr (xs : List JValue)
  | obj (kvs : List (List Char × JValue))

/-- Python dict key membership `k in project`. -/
def hasKey (k : List Char) (kvs : List (List Char × JValue)) : Bool :=
  kvs.any (fun kv => kv.1 == k)

/-- The `\}\s*\]` tail of the regex `\[\s*\{.+?\}\s*\]`: a closing brace,
greedy whitespace, then the closing bracket.  Returns the matched text and
the remainder. -/
def checkClose : List Char → Option (List Char × List Char)
  | '}' :: r =>
    match r.dropWhile wsChar with
    | ']' :: r3 => some ('}' :: (r.takeWhile wsChar ++ [']']), r3)
    | _ => none
  | _ => none

/-- The lazy `.+?` of the array regex: consume at least one character, then
at each position try the closing pattern first (shortest match wins). -/
def scanClose : List Char → Option (List Char × List Char)
  | [] => none
  | c :: cs =>
    match checkClose cs with
    | some ct => some (c :: ct.1, ct.2)
    | none =>
      match scanClose cs with
      | some m => some (c :: m.1, m.2)
      | none => none

/-- Try the regex `\[\s*\{.+?\}\s*\]` anchored at the head of the text,
returning `group(0)`. -/
def matchArrayAt (s : List Char) : Option (List Char) :=
  match s with
  | '[' :: s1 =>
    match s1.dropWhile wsChar with
    | '{' :: s3 =>
      match scanClose s3 with
      | some m => some ('[' :: (s1.takeWhile wsChar ++ '{' :: m.1))
      | none => none
    | _ => none
  | _ => none

/-- `re.search` of the array pattern: leftmost match. -/
def searchArray : List Char → Option (List Char)
  | [] => none
  | c :: cs =>
    match matchArrayAt (c :: cs) with
    | some m => some m
    | none => searchArray cs

/-- The string-cleaning phase of `clean_json_response` (lines 392-410):
strip, remove a leading code fence when a closing fence exists, then fall
back to the array-pattern search when the text does not already start with
`[`. -/
def jsonPreprocess (s : List Char) : List Char :=
  let cleaned := strip s
  let cleaned :=
    if (toL "```json").isPrefixOf cleaned || (toL "```").isPrefixOf cleaned then
      if containsSub (toL "```") (cleaned.drop 3) then
        let start_idx : Nat :=
          match findSub (toL "\n") cleaned with
          | some i => i + 1
          | none => 0
        let end_idx : Int :=
          match rfindSub (toL "```") cleaned with
          | some e => (e : Int)
          | none => -1
        if (start_idx : Int) < end_idx then
          strip ((cleaned.drop start_idx).take (end_idx.toNat - start_idx))
        else strip (cleaned.drop start_idx)
      else cleaned
    else cleaned
  if ¬ (toL "[").isPrefixOf cleaned then
    match searchArray cleaned with
    | some m => m
    | none => cleaned
  else cleaned

/-- The per-element validation of lines 421-427: keep only dict elements
carrying both a `title` and a `text` key. -/
def isValidProject : JValue → Bool
  | .obj kvs => hasKey (toL "title") kvs && hasKey (toL "text") kvs
  | _ => false

/-- `clean_json_response` (lines 382-436): empty input yields `[]`; the
preprocessed text is handed to the JSON parser; a parse failure or a
non-list result yields `[]`; a list is filtered down to its valid project
elements. -/
def clean_json_response (loads : List Char → Option JValue) (s : List Char) :
    List JValue :=
  if s = [] then []
  else
    match loads (jsonPreprocess s) with
    | none => []
    | some (.arr xs) => xs.filter isValidProject
    | some _ => []

/-! ## Per-file processing loop of `main` (lines 769-811)

The filesystem is an association list from paths to contents.  The combined
read/sanitize/extract stage of one iteration is abstracted by an effect
function: `err` = some exception was raised for that file, `ok ps now` = the
extraction collaborator returned the project list `ps` (possibly empty) with
`datetime.now().isoformat()` rendering as `now`. -/

inductive FileOutcome where
  | err
  | ok (projects : List JValue) (now : List Char)

structure RunState where
  fs : List (List Char × List Char)
  all_projects : List JValue
  files_processed : Nat
  files_with_errors : Nat

/-- Read a file's content (`open(...).read()`), `none` when absent. -/
def lookupFs : List (List Char × List Char) → List Char → Option (List Char)
  | [], _ => none
  | (q, c) :: rest, p => if q = p then some c else lookupFs rest p

/-- Overwrite a file's content (`open(..., 'w').write(...)`). -/
def writeFs : List (List Char × List Char) → List Char → List Char →
    List (List Char × List Char)
  | [], p, c => [(p, c)]
  | (q, c0) :: rest, p, c =>
    if q = p then (q, c) :: rest else (q, c0) :: writeFs rest p c

/-- One iteration of the per-file loop (lines 775-811): read the file,
extract projects (abstracted), accumulate them, then — whether or not any
project was found — write the document back with the `analyzed` stamp; any
exception only bumps the error counter and the loop continues. -/
def processOne (eff : List Char → FileOutcome) (st : RunState) (p : List Char) :
    RunState :=
  match lookupFs st.fs p with
  | none => { st with files_with_errors := st.files_with_errors + 1 }
  | some content =>
    match eff p with
    | .err => { st with files_with_errors := st.files_with_errors + 1 }
    | .ok ps now =>
      { fs := writeFs st.fs p (update_frontmatter_with_analyzed now content)
        all_projects := st.all_projects ++ ps
        files_processed := st.files_processed + 1
        files_with_errors := st.files_with_errors }

/-- The whole per-file loop over the selected paths (line 770). -/
def processFiles (eff : List Char → FileOutcome) (st : RunState)
    (paths : List (List Char)) : RunState :=
  paths.foldl (processOne eff) st

/-! ## Claim C7 -/

/-- Claim C7: the temporal window resolver is total and returns, for every
override outcome (including an unparseable override, which degrades to the
day before the current date), the window spanning exactly one calendar day
from 00:00:00.000000 to 23:59:59.999999 of the target date. -/
theorem c7_window_resolver (today : Int) (ov : Option (Option Int)) :
    get_previous_day_boundaries today ov = specWindow today ov ∧
    (get_previous_day_boundaries today (some none)).1 = (today - 1) * usPerDay ∧
    (get_previous_day_boundaries today ov).2 -
      (get_previous_day_boundaries today ov).1 = usPerDay - 1 ∧
    dateOf (get_previous_day_boundaries today ov).1 = specTargetDate today ov ∧
    dateOf (get_previous_day_boundaries today ov).2 = specTargetDate today ov := by
  have husPos : (0 : Int) < usPerDay := by decide
  refine ⟨?_, rfl, ?_, ?_, ?_⟩
  · cases ov with
    | none => rfl
    | some o => cases o <;> rfl
  · cases ov with
    | none => simp [get_previous_day_boundaries]
    | some o => cases o <;> simp [get_previous_day_boundaries]
  · have key : ∀ t : Int, t * usPerDay / usPerDay = t := fun t =>
      Int.mul_ediv_cancel t husPos.ne'
    cases ov with
    | none =>
      simp only [get_previous_day_boundaries, specTargetDate, dateOf]
      exact key _
    | some o =>
      cases o <;>
        · simp only [get_previous_day_boundaries, specTargetDate, dateOf]
          exact key _
  · have key : ∀ t : Int, (t * usPerDay + (usPerDay - 1)) / usPerDay = t := by
      intro t
      have h1 : (0 : Int) ≤ usPerDay - 1 := by decide
      have h2 : usPerDay - 1 < usPerDay := by decide
      have heq : t * usPerDay + (usPerDay - 1) = usPerDay - 1 + usPerDay * t := by ring
      rw [heq, Int.add_mul_ediv_left (usPerDay - 1) t husPos.ne',
        Int.ediv_eq_zero_of_lt h1 h2, zero_add]
    cases ov with
    | none =>
      simp only [get_previous_day_boundaries, specTargetDate, dateOf]
      exact key _
    | some o =>
      cases o <;>
        · simp only [get_previous_day_boundaries, specTargetDate, dateOf]
          exact key _

/-! ## Selection-engine lemmas -/

/-- Every path the secondary pass appends is the candidate's own path. -/
theorem phase2Loop_mem (sb eb : Int) (an : Option (Option Int)) (p x : List Char) :
    ∀ fs : List (Option (Option Int)), x ∈ phase2Loop sb eb an p fs → x = p := by
  intro fs
  induction fs with
  | nil => intro h; simp [phase2Loop] at h
  | cons hd rest ih =>
    match hd with
    | none => exact fun h => ih (by simpa [phase2Loop] using h)
    | some none => exact fun h => ih (by simpa [phase2Loop] using h)
    | some (some fmd) =>
      intro h
      simp only [phase2Loop] at h
      split at h
      · match an with
        | some (some t) =>
          simp only at h
          split at h
          · simpa using h
          · exact ih h
        | some none =>
          simp only [List.mem_cons] at h
          rcases h with h | h
          · exact h
          · exact ih h
        | none => simpa using h
      · exact ih h

/-- A path produced by one file step is either inherited or the file's path. -/
theorem selectStep_mem {sb eb : Int} {acc : List (List Char)} {p x : List Char}
    {f : MdFile} (h : x ∈ selectStep sb eb acc p f) : x ∈ acc ∨ x = p := by
  unfold selectStep at h
  split at h
  · split at h
    · rcases List.mem_append.1 h with h1 | h1
      · exact Or.inl h1
      · exact Or.inr (by simpa using h1)
    · exact Or.inl h
  · split at h
    · exact Or.inl h
    · split at h
      · exact Or.inl h
      · rcases List.mem_append.1 h with h1 | h1
        · exact Or.inl h1
        · exact Or.inr (phase2Loop_mem sb eb f.analyzed p x _ h1)

/-- The per-file step never drops an already-selected path. -/
theorem mem_selectStep_of_mem {sb eb : Int} {acc : List (List Char)} {x : List Char}
    (p : List Char) (f : MdFile) (h : x ∈ acc) : x ∈ selectStep sb eb acc p f := by
  unfold selectStep
  split
  · split
    · exact List.mem_append_left _ h
    · exact h
  · split
    · exact h
    · split
      · exact h
      · exact List.mem_append_left _ h

/-- The directory-file fold never drops an already-selected path. -/
theorem mem_foldl_fileStep_of_mem (sb eb : Int) (root : List Char) (x : List Char) :
    ∀ (fs : List MdFile) (acc : List (List Char)), x ∈ acc →
      x ∈ fs.foldl (fileStep sb eb root) acc := by
  intro fs
  induction fs with
  | nil => exact fun acc h => h
  | cons f rest ih =>
    intro acc h
    refine ih _ ?_
    unfold fileStep
    split
    · exact mem_selectStep_of_mem _ _ h
    · exact h

/-- The tree fold never drops an already-selected path. -/
theorem mem_foldl_dirStep_of_mem (sb eb : Int) (ex : List (List Char)) (x : List Char) :
    ∀ (tree : List DirEntry) (acc : List (List Char)), x ∈ acc →
      x ∈ tree.foldl (dirStep sb eb ex) acc := by
  intro tree
  induction tree with
  | nil => exact fun acc h => h
  | cons d rest ih =>
    intro acc h
    refine ih _ ?_
    unfold dirStep
    split
    · exact h
    · exact mem_foldl_fileStep_of_mem sb eb d.root x d.files acc h

/-- Any fail-open condition makes the timestamp-phase decision INCLUDE. -/
theorem phase1Include_of_failopen {f : MdFile}
    (h : f.analyzed = none ∨ f.analyzed = some none ∨ f.readable = false) :
    phase1Include f = true := by
  unfold phase1Include
  rcases h with h | h | h
  · split
    · rfl
    · rw [h]
  · split
    · rfl
    · rw [h]
  · rw [if_pos h]

/-! ## Claim C5 -/

/-- Claim C5: the selection engine fails open toward inclusion.  A markdown
file of a non-excluded directory whose stat timestamps put it in the window
is selected whenever its `analyzed` marker is absent, whenever the marker is
present but unparseable (regardless of the modification time), or whenever
reading/parsing the file raises. -/
theorem c5_fail_open (tree1 tree2 : List DirEntry) (root : List Char)
    (fs1 fs2 : List MdFile) (f : MdFile) (ex : List (List Char)) (sb eb : Int)
    (hex : excludedDir ex root = false)
    (hmd : endsList (toL ".md") f.name = true)
    (hrange : (sb ≤ f.ctime ∧ f.ctime ≤ eb) ∨ (sb ≤ f.mtime ∧ f.mtime ≤ eb))
    (hfail : f.analyzed = none ∨ f.analyzed = some none ∨ f.readable = false) :
    pathOf root f.name ∈
      find_md_files_from_previous_day (tree1 ++ ⟨root, fs1 ++ f :: fs2⟩ :: tree2)
        ex sb eb := by
  unfold find_md_files_from_previous_day
  rw [List.foldl_append, List.foldl_cons]
  apply mem_foldl_dirStep_of_mem
  unfold dirStep
  simp only [hex, Bool.false_eq_true, if_false]
  rw [List.foldl_append, List.foldl_cons]
  apply mem_foldl_fileStep_of_mem
  unfold fileStep
  simp only [hmd, if_true]
  unfold selectStep
  rw [if_pos hrange, if_pos (phase1Include_of_failopen hfail)]
  exact List.mem_append_right _ (List.mem_singleton.2 rfl)

/-- Witness for C5 at a concrete input: a file in the window with no
`analyzed` marker is selected. -/
theorem c5_fail_open_witness :
    pathOf (toL "/vault") (toL "note.md") ∈
      find_md_files_from_previous_day
        [⟨toL "/vault", [⟨toL "note.md", 500, 600, true, none, none, none, none, none⟩]⟩]
        [] 0 86399999999 :=
  c5_fail_open [] [] (toL "/vault") [] []
    ⟨toL "note.md", 500, 600, true, none, none, none, none, none⟩
    [] 0 86399999999 (by decide) (by decide) (by decide) (by decide)

/-! ## Claim C1 -/

/-- Claim C1: for an in-window markdown file whose `analyzed` marker parses
to time `T`, the engine includes the file if and only if its modification
time is strictly greater than `T` plus the 15-minute cooldown. -/
theorem c1_cooldown_selection (root name : List Char) (ex : List (List Char))
    (sb eb ct mt T : Int) (cr dt cd ca : Option (Option Int))
    (hex : excludedDir ex root = false)
    (hmd : endsList (toL ".md") name = true)
    (hrange : (sb ≤ ct ∧ ct ≤ eb) ∨ (sb ≤ mt ∧ mt ≤ eb)) :
    pathOf root name ∈
      find_md_files_from_previous_day
        [⟨root, [⟨name, ct, mt, true, some (some T), cr, dt, cd, ca⟩]⟩] ex sb eb
      ↔ mt > T + cooldown_period := by
  unfold find_md_files_from_previous_day
  rw [List.foldl_cons, List.foldl_nil]
  unfold dirStep
  simp only [hex, Bool.false_eq_true, if_false]
  rw [List.foldl_cons, List.foldl_nil]
  unfold fileStep
  simp only [hmd, if_true]
  unfold selectStep
  rw [if_pos hrange]
  unfold phase1Include
  simp only [reduceCtorEq, if_false]
  by_cases h : mt > T + cooldown_period
  · simp [h]
  · simp [h]

/-- Witness for C1: with a marker at `T = 0` and window `[0, 86399999999]`,
a modification at `T + 15m01s` is included and one at `T + 14m59s` is
skipped. -/
theorem c1_cooldown_selection_witness :
    pathOf (toL "/v") (toL "a.md") ∈
      find_md_files_from_previous_day
        [⟨toL "/v", [⟨toL "a.md", 500, 901000000, true, some (some 0),
          none, none, none, none⟩]⟩] [] 0 86399999999 ∧
    pathOf (toL "/v") (toL "a.md") ∉
      find_md_files_from_previous_day
        [⟨toL "/v", [⟨toL "a.md", 500, 899000000, true, some (some 0),
          none, none, none, none⟩]⟩] [] 0 86399999999 := by
  constructor
  · exact (c1_cooldown_selection (toL "/v") (toL "a.md") [] 0 86399999999 500
      901000000 0 none none none none (by decide) (by decide) (by decide)).mpr
      (by decide)
  · intro hmem
    exact absurd ((c1_cooldown_selection (toL "/v") (toL "a.md") [] 0 86399999999 500
      899000000 0 none none none none (by decide) (by decide) (by decide)).mp hmem)
      (by decide)

/-! ## Claim C2 -/

/-- Claim C2 is violated by the code: in the secondary pass the
unparseable-`analyzed` branch (line 196) appends without `break`, so both the
`created` and the `date` field append the same path and the result contains
it twice. -/
theorem c2_duplicate_path_eval :
    find_md_files_from_previous_day [⟨toL "/vault", [c2File]⟩] [] 0 86399999999 =
      [pathOf (toL "/vault") (toL "note.md"), pathOf (toL "/vault") (toL "note.md")] ∧
    ¬ (find_md_files_from_previous_day [⟨toL "/vault", [c2File]⟩] [] 0
        86399999999).Nodup := by
  constructor
  · decide
  · decide

/-! ## Claim C8 -/

/-- Paths cannot leave the accumulator across the file fold when no file of
the directory has the watched path. -/
theorem not_mem_foldl_fileStep (sb eb : Int) (root p : List Char) :
    ∀ (fs : List MdFile) (acc : List (List Char)),
      (∀ f ∈ fs, pathOf root f.name ≠ p) → p ∉ acc →
      p ∉ fs.foldl (fileStep sb eb root) acc := by
  intro fs
  induction fs with
  | nil => exact fun acc _ h => h
  | cons f rest ih =>
    intro acc hall h
    refine ih _ (fun g hg => hall g (List.mem_cons_of_mem _ hg)) ?_
    intro hmem
    unfold fileStep at hmem
    split at hmem
    · rcases selectStep_mem hmem with h1 | h1
      · exact h h1
      · exact hall f (List.mem_cons_self f rest) h1.symm
    · exact h hmem

/-- Claim C8: exclusion precedence.  If every directory of the tree that
could yield a given path is excluded, that path is never selected, regardless
of any timestamps or frontmatter dates. -/
theorem c8_exclusion (tree : List DirEntry) (ex : List (List Char)) (sb eb : Int)
    (p : List Char)
    (hall : ∀ d ∈ tree, ∀ f ∈ d.files, pathOf d.root f.name = p →
      excludedDir ex d.root = true) :
    p ∉ find_md_files_from_previous_day tree ex sb eb := by
  unfold find_md_files_from_previous_day
  have main : ∀ (t : List DirEntry) (acc : List (List Char)),
      (∀ d ∈ t, ∀ f ∈ d.files, pathOf d.root f.name = p →
        excludedDir ex d.root = true) →
      p ∉ acc → p ∉ t.foldl (dirStep sb eb ex) acc := by
    intro t
    induction t with
    | nil => exact fun acc _ h => h
    | cons d rest ih =>
      intro acc hd h
      refine ih _ (fun d2 hd2 => hd d2 (List.mem_cons_of_mem _ hd2)) ?_
      unfold dirStep
      split
      · exact h
      · rename_i hexc
        refine not_mem_foldl_fileStep sb eb d.root p d.files acc ?_ h
        intro f hf heq
        exact hexc (hd d (List.mem_cons_self d rest) f hf heq)
  exact main tree [] hall (by simp)

/-- Witness for C8: a file under the excluded folder `/vault/AI` is not
selected even though its timestamps are inside the window. -/
theorem c8_exclusion_witness :
    pathOf (toL "/vault/AI") (toL "note.md") ∉
      find_md_files_from_previous_day
        [⟨toL "/vault/AI", [⟨toL "note.md", 500, 600, true, none, none, none,
          none, none⟩]⟩] [toL "/vault/AI"] 0 86399999999 :=
  c8_exclusion
    [⟨toL "/vault/AI", [⟨toL "note.md", 500, 600, true, none, none, none,
      none, none⟩]⟩] [toL "/vault/AI"] 0 86399999999
    (pathOf (toL "/vault/AI") (toL "note.md")) (by decide)

/-! ## Codec lemmas -/

/-- Unfolding equation for `List.isPrefixOf` on two cons cells. -/
theorem ipo_cc (a b : Char) (as bs : List Char) :
    (a :: as).isPrefixOf (b :: bs) = (a == b && as.isPrefixOf bs) := rfl

/-- A list is a `isPrefixOf`-witness of itself followed by anything. -/
theorem isPrefixOf_append_self (p s : List Char) : p.isPrefixOf (p ++ s) = true := by
  induction p with
  | nil => cases s <;> rfl
  | cons c cs ih => rw [List.cons_append, ipo_cc, ih]; simp

/-- Unfolding equation for `splitFirst` on a cons cell, with the recursive
call expressed through `Option.map`. -/
theorem splitFirst_cons (p : List Char) (c : Char) (cs : List Char) :
    splitFirst p (c :: cs) =
      if p.isPrefixOf (c :: cs) then some ([], (c :: cs).drop p.length)
      else Option.map (fun gt => (c :: gt.1, gt.2)) (splitFirst p cs) := by
  conv_lhs => unfold splitFirst
  by_cases h : p.isPrefixOf (c :: cs) = true
  · rw [if_pos h, if_pos h]
  · rw [if_neg h, if_neg h]
    cases splitFirst p cs <;> rfl

/-- Splitting at `\n---\n` walks through a newline-free chunk `u` and its
terminating newline in one step. -/
theorem splitFirst_nld_line (u rest : List Char) (hu : '\n' ∉ u) :
    splitFirst (toL "\n---\n") (u ++ '\n' :: rest) =
      if (toL "---\n").isPrefixOf rest then some (u, rest.drop 4)
      else Option.map (fun gt => (u ++ '\n' :: gt.1, gt.2))
        (splitFirst (toL "\n---\n") rest) := by
  induction u with
  | nil =>
    rw [List.nil_append, splitFirst_cons]
    have hpre : (toL "\n---\n").isPrefixOf ('\n' :: rest) =
        (toL "---\n").isPrefixOf rest := by
      rw [show toL "\n---\n" = '\n' :: toL "---\n" from rfl, ipo_cc]
      simp
    rw [hpre]
    by_cases h : (toL "---\n").isPrefixOf rest = true
    · rw [if_pos h, if_pos h]
      rfl
    · rw [if_neg h, if_neg h]
      cases splitFirst (toL "\n---\n") rest <;> rfl
  | cons c u2 ih =>
    have hc : c ≠ '\n' := fun h => hu (h ▸ List.mem_cons_self c u2)
    have hu2 : '\n' ∉ u2 := fun h => hu (List.mem_cons_of_mem c h)
    rw [List.cons_append, splitFirst_cons]
    have htest : (toL "\n---\n").isPrefixOf (c :: (u2 ++ '\n' :: rest)) = false := by
      rw [show toL "\n---\n" = '\n' :: toL "---\n" from rfl, ipo_cc]
      have : ('\n' == c) = false := beq_eq_false_iff_ne.mpr (Ne.symm hc)
      rw [this, Bool.false_and]
    rw [htest, if_neg (by simp), ih hu2]
    by_cases h : (toL "---\n").isPrefixOf rest = true
    · rw [if_pos h, if_pos h]
      rfl
    · rw [if_neg h, if_neg h]
      cases splitFirst (toL "\n---\n") rest <;> rfl

/-- A dumped `key: value` line can never begin a closing delimiter. -/
theorem nld_not_in_line (k v Y : List Char) (hk : '\n' ∉ k) :
    (toL "---\n").isPrefixOf ((k ++ toL ": " ++ v) ++ '\n' :: Y) = false := by
  match k with
  | [] => simp [toL, List.isPrefixOf]
  | [a] => simp [toL, List.isPrefixOf]
  | [a, b] => simp [toL, List.isPrefixOf]
  | a :: b :: c :: t =>
    match t with
    | [] => simp [toL, List.isPrefixOf]
    | d :: t2 =>
      have hd : ('\n' == d) = false := by
        simp only [beq_eq_false_iff_ne, ne_eq]
        intro h
        exact hk (by simp [← h])
      simp [toL, List.isPrefixOf, hd]

/-- Loading one dumped line recovers its key/value pair when the key is free
of the separator pattern. -/
theorem splitColon_append (v : List Char) :
    ∀ k : List Char, containsSub (toL ": ") k = false →
      splitColon (k ++ toL ": " ++ v) = some (k, v) := by
  intro k
  induction k with
  | nil =>
    intro _
    show splitFirst (toL ": ") (':' :: ' ' :: v) = some ([], v)
    rw [splitFirst_cons, if_pos (by simp [toL, List.isPrefixOf])]
    rfl
  | cons c k2 ih =>
    intro hc
    have hc2 : containsSub (toL ": ") k2 = false := by
      unfold containsSub at hc
      exact (Bool.or_eq_false_iff.1 hc).2
    have hc1 : (toL ": ").isPrefixOf (c :: k2) = false := by
      unfold containsSub at hc
      exact (Bool.or_eq_false_iff.1 hc).1
    have htest : (toL ": ").isPrefixOf (c :: (k2 ++ toL ": " ++ v)) = false := by
      cases k2 with
      | nil => simp [toL, List.isPrefixOf]
      | cons d k3 =>
        simp only [toL] at hc1 ⊢
        simp [List.isPrefixOf] at hc1 ⊢
        exact hc1
    show splitFirst (toL ": ") (c :: (k2 ++ toL ": " ++ v)) = some (c :: k2, v)
    rw [splitFirst_cons, if_neg (by rw [htest]; simp)]
    have ihs : splitFirst (toL ": ") (k2 ++ toL ": " ++ v) = some (k2, v) := ih hc2
    rw [ihs]
    rfl

/-- A newline-free text is a single line. -/
theorem splitLines_no_newline (u : List Char) (hu : '\n' ∉ u) :
    splitLines u = [u] := by
  induction u with
  | nil => rfl
  | cons c u2 ih =>
    have hc : c ≠ '\n' := fun h => hu (h ▸ List.mem_cons_self c u2)
    have hu2 : '\n' ∉ u2 := fun h => hu (List.mem_cons_of_mem c h)
    conv_lhs => unfold splitLines
    rw [if_neg hc, ih hu2]

/-- Splitting lines walks through a newline-free first line. -/
theorem splitLines_append (u rest : List Char) (hu : '\n' ∉ u) :
    splitLines (u ++ '\n' :: rest) = u :: splitLines rest := by
  induction u with
  | nil =>
    show splitLines ('\n' :: rest) = [] :: splitLines rest
    conv_lhs => unfold splitLines
    rw [if_pos rfl]
  | cons c u2 ih =>
    have hc : c ≠ '\n' := fun h => hu (h ▸ List.mem_cons_self c u2)
    have hu2 : '\n' ∉ u2 := fun h => hu (List.mem_cons_of_mem c h)
    show splitLines (c :: (u2 ++ '\n' :: rest)) = (c :: u2) :: splitLines rest
    conv_lhs => unfold splitLines
    rw [if_neg hc, ih hu2]

/-- The closing delimiter search lands exactly at the end of a dumped
non-empty map, whatever follows. -/
theorem splitFirst_dump (bp : List Char) :
    ∀ m : List (List Char × List Char), m ≠ [] → (∀ kv ∈ m, yamlSafePair kv) →
      splitFirst (toL "\n---\n") (yamlDump m ++ toL "---\n" ++ bp) =
        some (dumpCore m, bp) := by
  intro m
  induction m with
  | nil => intro h; exact absurd rfl h
  | cons kv rest ih =>
    intro _ hsafe
    obtain ⟨k, v⟩ := kv
    have hk : '\n' ∉ k := (hsafe (k, v) (List.mem_cons_self _ _)).1
    have hv : '\n' ∉ v := (hsafe (k, v) (List.mem_cons_self _ _)).2.2
    have hu : '\n' ∉ k ++ toL ": " ++ v := by
      intro h
      rcases List.mem_append.1 h with h1 | h1
      · rcases List.mem_append.1 h1 with h2 | h2
        · exact hk h2
        · simp [toL] at h2
      · exact hv h1
    have harr : yamlDump ((k, v) :: rest) ++ toL "---\n" ++ bp =
        (k ++ toL ": " ++ v) ++ '\n' :: (yamlDump rest ++ toL "---\n" ++ bp) := by
      simp [yamlDump]
    rw [harr, splitFirst_nld_line _ _ hu]
    cases rest with
    | nil =>
      have hpre : (toL "---\n").isPrefixOf (yamlDump [] ++ toL "---\n" ++ bp) = true := by
        show (toL "---\n").isPrefixOf (toL "---\n" ++ bp) = true
        exact isPrefixOf_append_self _ _
      rw [if_pos hpre]
      show some (k ++ toL ": " ++ v, ((toL "---\n" ++ bp).drop 4)) = _
      rw [show (4 : Nat) = (toL "---\n").length from rfl, List.drop_left]
      rfl
    | cons kv2 rest2 =>
      obtain ⟨k2, v2⟩ := kv2
      have hline : yamlDump ((k2, v2) :: rest2) ++ toL "---\n" ++ bp =
          (k2 ++ toL ": " ++ v2) ++ '\n' :: (yamlDump rest2 ++ toL "---\n" ++ bp) := by
        simp [yamlDump]
      have hk2 : '\n' ∉ k2 :=
        (hsafe (k2, v2) (List.mem_cons_of_mem _ (List.mem_cons_self _ _))).1
      have hnot : (toL "---\n").isPrefixOf
          (yamlDump ((k2, v2) :: rest2) ++ toL "---\n" ++ bp) = false := by
        rw [hline]
        exact nld_not_in_line k2 v2 _ hk2
      rw [if_neg (by rw [hnot]; exact Bool.false_ne_true)]
      rw [ih (by simp) (fun kv h => hsafe kv (List.mem_cons_of_mem _ h))]
      rfl

/-- Loading the captured group of a dumped non-empty map recovers the map. -/
theorem yamlLoad_dumpCore :
    ∀ m : List (List Char × List Char), m ≠ [] → (∀ kv ∈ m, yamlSafePair kv) →
      yamlLoad (dumpCore m) = some m := by
  have main : ∀ m : List (List Char × List Char), m ≠ [] →
      (∀ kv ∈ m, yamlSafePair kv) →
      loadLines (splitLines (dumpCore m)) = some m ∧ dumpCore m ≠ [] := by
    intro m
    induction m with
    | nil => intro h; exact absurd rfl h
    | cons kv rest ih =>
      intro _ hsafe
      obtain ⟨k, v⟩ := kv
      have hk : '\n' ∉ k := (hsafe (k, v) (List.mem_cons_self _ _)).1
      have hks : containsSub (toL ": ") k = false :=
        (hsafe (k, v) (List.mem_cons_self _ _)).2.1
      have hv : '\n' ∉ v := (hsafe (k, v) (List.mem_cons_self _ _)).2.2
      have hu : '\n' ∉ k ++ toL ": " ++ v := by
        intro h
        rcases List.mem_append.1 h with h1 | h1
        · rcases List.mem_append.1 h1 with h2 | h2
          · exact hk h2
          · simp [toL] at h2
        · exact hv h1
      cases rest with
      | nil =>
        constructor
        · show loadLines (splitLines (k ++ toL ": " ++ v)) = _
          rw [splitLines_no_newline _ hu]
          show loadLines [k ++ toL ": " ++ v] = _
          unfold loadLines
          rw [splitColon_append v k hks]
          rfl
        · show k ++ toL ": " ++ v ≠ []
          simp [toL]
      | cons kv2 rest2 =>
        have ihr := ih (by simp) (fun kv h => hsafe kv (List.mem_cons_of_mem _ h))
        constructor
        · show loadLines (splitLines ((k ++ toL ": " ++ v) ++ '\n' ::
            dumpCore (kv2 :: rest2))) = _
          rw [splitLines_append _ _ hu]
          unfold loadLines
          rw [splitColon_append v k hks, ihr.1]
        · show (k ++ toL ": " ++ v) ++ '\n' :: dumpCore (kv2 :: rest2) ≠ []
          simp
  intro m hm hsafe
  unfold yamlLoad
  rw [if_neg (main m hm hsafe).2]
  exact (main m hm hsafe).1

/-! ## Claim C4 -/

/-- Claim C4 as stated is violated: serializing metadata with body `hello`
and parsing back yields body `\nhello` (the blank separator line is part of
the parsed remainder), not the original body. -/
theorem c4_roundtrip_counterexample :
    parse_frontmatter (serialize_frontmatter [(toL "title", toL "x")] (toL "hello")) =
      ([(toL "title", toL "x")], toL "\nhello") ∧
    parse_frontmatter (serialize_frontmatter [(toL "title", toL "x")] (toL "hello")) ≠
      ([(toL "title", toL "x")], toL "hello") := by
  constructor
  · decide
  · decide

/-- Claim C4 amended: for a non-empty map of YAML-safe scalars, parsing the
serialized form reproduces the map exactly, and reproduces the body up to
whitespace normalization — the parsed body is one blank separator line
followed by `lstrip` of the body (or empty for a blank body); the round trip
is the identity on the body exactly when the body already has that shape. -/
theorem c4_roundtrip_amended (m : List (List Char × List Char)) (b : List Char)
    (hm : m ≠ []) (hsafe : ∀ kv ∈ m, yamlSafePair kv) :
    parse_frontmatter (serialize_frontmatter m b) =
      (m, if strip b = [] then [] else '\n' :: lstrip b) ∧
    (parse_frontmatter (serialize_frontmatter m b) = (m, b) ↔
      b = (if strip b = [] then [] else '\n' :: lstrip b)) := by
  have core : ∀ bp : List Char,
      parse_frontmatter (toL "---\n" ++ yamlDump m ++ toL "---\n" ++ bp) = (m, bp) := by
    intro bp
    unfold parse_frontmatter
    rw [if_pos (by
      rw [show toL "---\n" ++ yamlDump m ++ toL "---\n" ++ bp =
        toL "---\n" ++ (yamlDump m ++ toL "---\n" ++ bp) from by simp]
      exact isPrefixOf_append_self _ _)]
    rw [show (toL "---\n" ++ yamlDump m ++ toL "---\n" ++ bp).drop 4 =
        yamlDump m ++ toL "---\n" ++ bp from by
      rw [show toL "---\n" ++ yamlDump m ++ toL "---\n" ++ bp =
        toL "---\n" ++ (yamlDump m ++ toL "---\n" ++ bp) from by simp,
        show (4 : Nat) = (toL "---\n").length from rfl, List.drop_left]]
    simp only [splitFirst_dump bp m hm hsafe, yamlLoad_dumpCore m hm hsafe]
  have main : parse_frontmatter (serialize_frontmatter m b) =
      (m, if strip b = [] then [] else '\n' :: lstrip b) := by
    unfold serialize_frontmatter
    by_cases hb : strip b = []
    · rw [if_neg (by simpa using hb), if_pos hb]
      exact (by simpa using core [])
    · rw [if_pos (by simpa using hb), if_neg hb]
      have : toL "---\n" ++ yamlDump m ++ toL "---\n\n" ++ lstrip b =
          toL "---\n" ++ yamlDump m ++ toL "---\n" ++ ('\n' :: lstrip b) := by
        simp [toL]
      rw [this]
      exact core ('\n' :: lstrip b)
  refine ⟨main, ?_⟩
  rw [main]
  constructor
  · intro h
    have := congrArg Prod.snd h
    simpa using this.symm
  · intro h
    rw [← h]

/-- Witness for C4 amended at a concrete input: a body already in normalized
shape round-trips exactly. -/
theorem c4_roundtrip_amended_witness :
    parse_frontmatter (serialize_frontmatter [(toL "a", toL "b")] (toL "\nhello")) =
      ([(toL "a", toL "b")], toL "\nhello") := by
  have h := c4_roundtrip_amended [(toL "a", toL "b")] (toL "\nhello")
    (by decide)
    (by
      intro kv hkv
      rw [List.mem_singleton] at hkv
      subst hkv
      exact ⟨by decide, by decide, by decide⟩)
  exact h.1.trans (by decide)

/-! ## Claim C9 -/

/-- Re-stamping `analyzed` touches no other entry: erasing `analyzed` from
the updated map gives back the original map minus `analyzed`, so every other
key keeps its value and relative position. -/
theorem removeKey_cons (k k0 v0 : List Char) (rest : List (List Char × List Char)) :
    removeKey k ((k0, v0) :: rest) =
      if k0 = k then removeKey k rest else (k0, v0) :: removeKey k rest := by
  by_cases h : k0 = k
  · simp [removeKey, List.filter_cons, h]
  · simp [removeKey, List.filter_cons, h]

theorem removeKey_setKey (k v : List Char) :
    ∀ m : List (List Char × List Char), removeKey k (setKey m k v) = removeKey k m := by
  intro m
  induction m with
  | nil => simp [setKey, removeKey]
  | cons kv rest ih =>
    obtain ⟨k0, v0⟩ := kv
    by_cases h : k0 = k
    · unfold setKey
      rw [if_pos h, removeKey_cons, removeKey_cons, if_pos h, if_pos h]
    · unfold setKey
      rw [if_neg h, removeKey_cons, removeKey_cons, if_neg h, if_neg h, ih]

/-- Claim C9 as stated is violated: the body `" x"` has no leading blank
line, yet re-stamping strips its leading indentation (Python `lstrip`
removes all leading whitespace, not only blank lines). -/
theorem c9_frame_counterexample :
    (parse_frontmatter (toL "---\na: b\n---\n x")).2 = toL " x" ∧
    update_frontmatter_with_analyzed (toL "T") (toL "---\na: b\n---\n x") =
      toL "---\na: b\nanalyzed: T\n---\n\nx" ∧
    update_frontmatter_with_analyzed (toL "T") (toL "---\na: b\n---\n x") ≠
      toL "---\na: b\nanalyzed: T\n---\n\n x" := by
  refine ⟨by decide, by decide, by decide⟩

/-- Claim C9 amended: re-stamping rewrites the document as the delimiter
block around the dump of the updated map — every key except `analyzed`
keeping its value and insertion position — followed by the body with its
leading whitespace (not only blank lines) replaced by a single blank
separator line, a whitespace-only body being dropped entirely. -/
theorem c9_frame_amended (now c : List Char) :
    update_frontmatter_with_analyzed now c =
      toL "---\n" ++
        yamlDump (setKey (parse_frontmatter c).1 (toL "analyzed") now) ++
        toL "---\n" ++
        (if strip (parse_frontmatter c).2 = [] then []
         else '\n' :: lstrip (parse_frontmatter c).2) ∧
    removeKey (toL "analyzed") (setKey (parse_frontmatter c).1 (toL "analyzed") now) =
      removeKey (toL "analyzed") (parse_frontmatter c).1 := by
  constructor
  · unfold update_frontmatter_with_analyzed serialize_frontmatter
    by_cases hb : strip (parse_frontmatter c).2 = []
    · rw [if_neg (by simpa using hb), if_pos hb]
      simp
    · rw [if_pos (by simpa using hb), if_neg hb]
      simp [toL]
  · exact removeKey_setKey (toL "analyzed") now (parse_frontmatter c).1

/-! ## Claim C6 -/

/-- Writing one path leaves every other path's content unchanged. -/
theorem lookupFs_writeFs_ne (p q c : List Char) (hpq : q ≠ p) :
    ∀ fs : List (List Char × List Char), lookupFs (writeFs fs q c) p = lookupFs fs p := by
  intro fs
  induction fs with
  | nil =>
    show lookupFs [(q, c)] p = none
    unfold lookupFs
    rw [if_neg hpq]
    rfl
  | cons qc rest ih =>
    obtain ⟨q0, c0⟩ := qc
    by_cases h : q0 = q
    · unfold writeFs
      rw [if_pos h]
      unfold lookupFs
      rw [if_neg (h ▸ hpq), if_neg (h ▸ hpq)]
    · unfold writeFs
      rw [if_neg h]
      unfold lookupFs
      by_cases h2 : q0 = p
      · rw [if_pos h2, if_pos h2]
      · rw [if_neg h2, if_neg h2, ih]

/-- Writing one path makes its content the written one. -/
theorem lookupFs_writeFs_eq (p c : List Char) :
    ∀ fs : List (List Char × List Char), lookupFs (writeFs fs p c) p = some c := by
  intro fs
  induction fs with
  | nil =>
    show lookupFs [(p, c)] p = some c
    unfold lookupFs
    rw [if_pos rfl]
  | cons qc rest ih =>
    obtain ⟨q0, c0⟩ := qc
    by_cases h : q0 = p
    · unfold writeFs
      rw [if_pos h]
      unfold lookupFs
      rw [if_pos h]
    · unfold writeFs
      rw [if_neg h]
      unfold lookupFs
      rw [if_neg h, ih]

/-- An iteration for another path does not touch this path's content. -/
theorem processOne_frame (eff : List Char → FileOutcome) (st : RunState)
    (p q : List Char) (hpq : q ≠ p) :
    lookupFs (processOne eff st q).fs p = lookupFs st.fs p := by
  unfold processOne
  cases lookupFs st.fs q with
  | none => rfl
  | some content =>
    cases eff q with
    | err => rfl
    | ok ps now => exact lookupFs_writeFs_ne p q _ hpq st.fs

/-- A run over paths avoiding `p` does not touch `p`'s content. -/
theorem processFiles_frame (eff : List Char → FileOutcome) (p : List Char) :
    ∀ (paths : List (List Char)) (st : RunState), p ∉ paths →
      lookupFs (processFiles eff st paths).fs p = lookupFs st.fs p := by
  intro paths
  induction paths with
  | nil => exact fun st _ => rfl
  | cons q rest ih =>
    intro st hp
    have hq : q ≠ p := fun h => hp (h ▸ List.mem_cons_self q rest)
    have hrest : p ∉ rest := fun h => hp (List.mem_cons_of_mem _ h)
    show lookupFs (processFiles eff (processOne eff st q) rest).fs p = _
    rw [ih _ hrest, processOne_frame eff st p q hq]

/-- Claim C6: when the per-file processing of a selected document completes
without raising (outcome `ok ps now`, including `ps = []`), the document is
rewritten with the `analyzed` stamp before the loop moves on, so at the end
of the run its stored content is the re-stamped original content. -/
theorem c6_marker_update (eff : List Char → FileOutcome) (st : RunState)
    (pre post : List (List Char)) (p : List Char) (ps : List JValue)
    (now c : List Char)
    (hc : lookupFs st.fs p = some c)
    (hpre : p ∉ pre) (hpost : p ∉ post)
    (heff : eff p = FileOutcome.ok ps now) :
    lookupFs (processFiles eff st (pre ++ p :: post)).fs p =
      some (update_frontmatter_with_analyzed now c) := by
  unfold processFiles
  rw [List.foldl_append, List.foldl_cons]
  have hmid : lookupFs ((pre.foldl (processOne eff) st).fs) p = some c := by
    have := processFiles_frame eff p pre st hpre
    unfold processFiles at this
    rw [this]
    exact hc
  generalize hg : List.foldl (processOne eff) st pre = st1 at hmid ⊢
  have hstep : lookupFs (processOne eff st1 p).fs p =
      some (update_frontmatter_with_analyzed now c) := by
    unfold processOne
    rw [hmid, heff]
    exact lookupFs_writeFs_eq p _ _
  have hpost2 := processFiles_frame eff p post (processOne eff st1 p) hpost
  unfold processFiles at hpost2
  rw [hpost2, hstep]

/-- Witness for C6 at a concrete input: a run over a single file whose
extraction returns zero projects still re-stamps the file. -/
theorem c6_marker_update_witness :
    lookupFs
      (processFiles (fun _ => FileOutcome.ok [] (toL "N"))
        ⟨[(toL "/v/a.md", toL "---\nt: y\n---\nbody")], [], 0, 0⟩
        [toL "/v/a.md"]).fs (toL "/v/a.md") =
      some (update_frontmatter_with_analyzed (toL "N") (toL "---\nt: y\n---\nbody")) ∧
    update_frontmatter_with_analyzed (toL "N") (toL "---\nt: y\n---\nbody") =
      toL "---\nt: y\nanalyzed: N\n---\n\nbody" := by
  constructor
  · exact c6_marker_update (fun _ => FileOutcome.ok [] (toL "N"))
      ⟨[(toL "/v/a.md", toL "---\nt: y\n---\nbody")], [], 0, 0⟩
      [] [] (toL "/v/a.md") [] (toL "N") (toL "---\nt: y\n---\nbody")
      (by decide) (by decide) (by decide) rfl
  · decide

/-! ## Claim C10 -/

/-- Claim C10: the LLM-response parser is total and validating — every
element of its result is a dictionary with both a `title` and a `text` key,
and a JSON parse failure or a non-list parse result yields the empty list. -/
theorem c10_clean_json_validates (loads : List Char → Option JValue)
    (s : List Char) :
    (∀ v ∈ clean_json_response loads s, ∃ kvs, v = JValue.obj kvs ∧
        hasKey (toL "title") kvs = true ∧ hasKey (toL "text") kvs = true) ∧
    (loads (jsonPreprocess s) = none → clean_json_response loads s = []) ∧
    (∀ v, loads (jsonPreprocess s) = some v → (∀ xs, v ≠ JValue.arr xs) →
      clean_json_response loads s = []) := by
  refine ⟨?_, ?_, ?_⟩
  · intro v hv
    unfold clean_json_response at hv
    split at hv
    · simp at hv
    · split at hv
      · simp at hv
      · rename_i xs _
        have hfil := List.mem_filter.1 hv
        have hvalid := hfil.2
        cases v with
        | obj kvs =>
          have h2 : (hasKey (toL "title") kvs && hasKey (toL "text") kvs) = true := by
            simpa [isValidProject] using hvalid
          rw [Bool.and_eq_true] at h2
          exact ⟨kvs, rfl, h2.1, h2.2⟩
        | null => simp [isValidProject] at hvalid
        | bool b => simp [isValidProject] at hvalid
        | num n => simp [isValidProject] at hvalid
        | str t => simp [isValidProject] at hvalid
        | arr ys => simp [isValidProject] at hvalid
      · simp at hv
  · intro hnone
    unfold clean_json_response
    split
    · rfl
    · rw [hnone]
  · intro v hsome hnl
    unfold clean_json_response
    split
    · rfl
    · rw [hsome]
      cases v with
      | arr xs => exact absurd rfl (hnl xs)
      | null => rfl
      | bool b => rfl
      | num n => rfl
      | str t => rfl
      | obj kvs => rfl

/-- Witness for C10 at a concrete input: a parser returning a two-element
list (one valid project, one number) yields only the valid project, which
carries both keys. -/
theorem c10_clean_json_validates_witness :
    ∃ kvs, JValue.obj [(toL "title", JValue.str (toL "t")),
        (toL "text", JValue.str (toL "x"))] = JValue.obj kvs ∧
      hasKey (toL "title") kvs = true ∧ hasKey (toL "text") kvs = true := by
  have h := (c10_clean_json_validates
    (fun _ => some (JValue.arr [JValue.obj [(toL "title", JValue.str (toL "t")),
      (toL "text", JValue.str (toL "x"))], JValue.num 3]))
    (toL "x")).1
    (JValue.obj [(toL "title", JValue.str (toL "t")),
      (toL "text", JValue.str (toL "x"))])
  refine h ?_
  show _ ∈ clean_json_response _ _
  rw [show clean_json_response
      (fun _ => some (JValue.arr [JValue.obj [(toL "title", JValue.str (toL "t")),
        (toL "text", JValue.str (toL "x"))], JValue.num 3]))
      (toL "x") =
      [JValue.obj [(toL "title", JValue.str (toL "t")),
        (toL "text", JValue.str (toL "x"))]] from rfl]
  exact List.mem_singleton.2 rfl

/-! ## Publisher lemmas -/

/-- Unfolding equation for `lazySplit` on a cons cell. -/
theorem lazySplit_cons (c : Char) (cs : List Char) :
    lazySplit (c :: cs) =
      if c = '\n' ∧ cs.head? = some '#' then ([], c :: cs)
      else (c :: (lazySplit cs).1, (lazySplit cs).2) := rfl

/-- The remainder of a lazy split never grows. -/
theorem lazySplit_snd_length : ∀ s : List Char, (lazySplit s).2.length ≤ s.length := by
  intro s
  induction s with
  | nil => exact Nat.le_refl 0
  | cons c cs ih =>
    rw [lazySplit_cons]
    by_cases h : c = '\n' ∧ cs.head? = some '#'
    · rw [if_pos h]
    · rw [if_neg h]
      exact Nat.le_succ_of_le ih

/-- The remainder of a lazy split is empty or starts with the lookahead
pattern `\n#`. -/
theorem lazySplit_snd_shape :
    ∀ s : List Char, (lazySplit s).2 = [] ∨ ∃ t, (lazySplit s).2 = '\n' :: '#' :: t := by
  intro s
  induction s with
  | nil => exact Or.inl rfl
  | cons c cs ih =>
    rw [lazySplit_cons]
    by_cases h : c = '\n' ∧ cs.head? = some '#'
    · rw [if_pos h]
      obtain ⟨h1, h2⟩ := h
      cases cs with
      | nil => simp at h2
      | cons d cs2 =>
        refine Or.inr ⟨cs2, ?_⟩
        have hd : d = '#' := by simpa using h2
        rw [h1, hd]
    · rw [if_neg h]
      exact ih

/-- A lazy split of a clean chunk followed by a lookahead-shaped (or empty)
remainder splits exactly at the junction. -/
theorem lazySplit_clean :
    ∀ w v : List Char, containsSub (toL "\n#") w = false →
      (v = [] ∨ ∃ t, v = '\n' :: '#' :: t) →
      lazySplit (w ++ v) = (w, v) := by
  intro w
  induction w with
  | nil =>
    intro v _ hv
    rcases hv with rfl | ⟨t, rfl⟩
    · rfl
    · rw [List.nil_append, lazySplit_cons, if_pos ⟨rfl, rfl⟩]
  | cons c w2 ih =>
    intro v hw hv
    have hw2 : containsSub (toL "\n#") w2 = false := by
      unfold containsSub at hw
      exact (Bool.or_eq_false_iff.1 hw).2
    have hw1 : (toL "\n#").isPrefixOf (c :: w2) = false := by
      unfold containsSub at hw
      exact (Bool.or_eq_false_iff.1 hw).1
    rw [List.cons_append, lazySplit_cons]
    have hcond : ¬(c = '\n' ∧ (w2 ++ v).head? = some '#') := by
      rintro ⟨rfl, hh⟩
      cases w2 with
      | nil =>
        rcases hv with rfl | ⟨t, rfl⟩
        · simp at hh
        · simp at hh
      | cons d w3 =>
        have hd : d = '#' := by simpa using hh
        subst hd
        rw [show toL "\n#" = '\n' :: '#' :: ([] : List Char) from rfl, ipo_cc] at hw1
        simp [ipo_cc] at hw1
    rw [if_neg hcond, ih v hw2 hv]

/-- Unfolding equation for the fueled scanner on a cons cell with positive
fuel. -/
theorem subSectionF_cons (h0 : Char) (htl rep : List Char) (fuel : Nat) (c : Char)
    (cs : List Char) :
    subSectionF h0 htl rep (fuel + 1) (c :: cs) =
      if (h0 :: htl).isPrefixOf (c :: cs) then
        rep ++ subSectionF h0 htl rep fuel (lazySplit ((c :: cs).drop (htl.length + 1))).2
      else c :: subSectionF h0 htl rep fuel cs := rfl

/-- The scanner result does not depend on the fuel, as long as the fuel
covers the text length. -/
theorem subSectionF_irrel (h0 : Char) (htl rep : List Char) :
    ∀ (f1 : Nat) (s : List Char) (f2 : Nat), s.length ≤ f1 → s.length ≤ f2 →
      subSectionF h0 htl rep f1 s = subSectionF h0 htl rep f2 s := by
  intro f1
  induction f1 with
  | zero =>
    intro s f2 h1 _
    have hs : s = [] := List.length_eq_zero.1 (Nat.le_zero.1 h1)
    subst hs
    cases f2 <;> rfl
  | succ f ih =>
    intro s f2 h1 h2
    cases s with
    | nil => cases f2 <;> rfl
    | cons c cs =>
      cases f2 with
      | zero => exact absurd h2 (by simp)
      | succ f2' =>
        rw [subSectionF_cons, subSectionF_cons]
        by_cases h : (h0 :: htl).isPrefixOf (c :: cs) = true
        · rw [if_pos h, if_pos h]
          have hlen : (lazySplit ((c :: cs).drop (htl.length + 1))).2.length ≤ cs.length := by
            calc (lazySplit ((c :: cs).drop (htl.length + 1))).2.length
                ≤ ((c :: cs).drop (htl.length + 1)).length :=
                  lazySplit_snd_length _
              _ = cs.length - htl.length := by simp
              _ ≤ cs.length := Nat.sub_le _ _
          rw [ih _ f2' (Nat.le_trans hlen (Nat.succ_le_succ_iff.1 h1))
            (Nat.le_trans hlen (Nat.succ_le_succ_iff.1 h2))]
        · rw [if_neg h, if_neg h]
          rw [ih cs f2' (Nat.succ_le_succ_iff.1 h1) (Nat.succ_le_succ_iff.1 h2)]

/-- `subSection` on the empty text. -/
theorem subSection_nil (h0 : Char) (htl rep : List Char) :
    subSection h0 htl rep [] = [] := rfl

/-- `subSection` at a header occurrence: emit the replacement and continue
after the lazy span. -/
theorem subSection_pos (h0 : Char) (htl rep : List Char) (c : Char) (cs : List Char)
    (h : (h0 :: htl).isPrefixOf (c :: cs) = true) :
    subSection h0 htl rep (c :: cs) =
      rep ++ subSection h0 htl rep (lazySplit ((c :: cs).drop (htl.length + 1))).2 := by
  unfold subSection
  rw [show (c :: cs).length = cs.length + 1 from rfl, subSectionF_cons, if_pos h]
  have hlen : (lazySplit ((c :: cs).drop (htl.length + 1))).2.length ≤ cs.length := by
    calc (lazySplit ((c :: cs).drop (htl.length + 1))).2.length
        ≤ ((c :: cs).drop (htl.length + 1)).length := lazySplit_snd_length _
      _ = cs.length - htl.length := by simp
      _ ≤ cs.length := Nat.sub_le _ _
  rw [subSectionF_irrel h0 htl rep cs.length _ _ hlen (Nat.le_refl _)]

/-- `subSection` away from a header occurrence: copy one character. -/
theorem subSection_neg (h0 : Char) (htl rep : List Char) (c : Char) (cs : List Char)
    (h : (h0 :: htl).isPrefixOf (c :: cs) = false) :
    subSection h0 htl rep (c :: cs) = c :: subSection h0 htl rep cs := by
  unfold subSection
  rw [show (c :: cs).length = cs.length + 1 from rfl, subSectionF_cons,
    if_neg (by rw [h]; simp)]

/-- A successful `isPrefixOf` test exposes the text as header plus
remainder. -/
theorem ipo_exists : ∀ p s : List Char, p.isPrefixOf s = true → ∃ t, s = p ++ t := by
  intro p
  induction p with
  | nil => exact fun s _ => ⟨s, rfl⟩
  | cons a p2 ih =>
    intro s h
    cases s with
    | nil => simp [List.isPrefixOf] at h
    | cons b s2 =>
      rw [ipo_cc, Bool.and_eq_true] at h
      obtain ⟨t, ht⟩ := ih s2 h.2
      have hab : a = b := by simpa using h.1
      exact ⟨t, by rw [List.cons_append, ← ht, hab]⟩

/-- When the replacement extends the header, the scanner never changes the
first `htl.length + 1` characters of the text. -/
theorem subSection_take (h0 : Char) (htl r0 : List Char) :
    ∀ (n : Nat) (s : List Char), s.length ≤ n → ∀ k, k ≤ htl.length + 1 →
      (subSection h0 htl ((h0 :: htl) ++ r0) s).take k = s.take k := by
  intro n
  induction n with
  | zero =>
    intro s h1 k _
    have hs : s = [] := List.length_eq_zero.1 (Nat.le_zero.1 h1)
    subst hs
    rfl
  | succ n ih =>
    intro s h1 k hk
    cases s with
    | nil => rfl
    | cons c cs =>
      by_cases h : (h0 :: htl).isPrefixOf (c :: cs) = true
      · rw [subSection_pos h0 htl _ c cs h]
        obtain ⟨t, ht⟩ := ipo_exists _ _ h
        have hlen1 : k ≤ ((h0 :: htl) ++ r0).length := by
          simp only [List.length_append, List.length_cons]
          omega
        have hlen2 : k ≤ (h0 :: htl).length := by
          simp only [List.length_cons]
          omega
        rw [List.append_assoc, List.take_append_of_le_length hlen2, ht,
          List.take_append_of_le_length hlen2]
      · rw [subSection_neg h0 htl _ c cs (Bool.eq_false_iff.mpr h)]
        cases k with
        | zero => rfl
        | succ k2 =>
          rw [List.take_succ_cons, List.take_succ_cons,
            ih cs (Nat.succ_le_succ_iff.1 h1) k2 (Nat.le_trans (Nat.le_succ _) hk)]

/-- `isPrefixOf` only looks at the first `p.length` characters. -/
theorem ipo_take_congr : ∀ p x y : List Char, x.take p.length = y.take p.length →
    p.isPrefixOf x = p.isPrefixOf y := by
  intro p
  induction p with
  | nil => intro x y _; cases x <;> cases y <;> rfl
  | cons a p2 ih =>
    intro x y h
    cases x with
    | nil =>
      cases y with
      | nil => rfl
      | cons b y2 =>
        have : ([] : List Char) = b :: y2.take p2.length := h
        simp at this
    | cons c x2 =>
      cases y with
      | nil =>
        have : c :: x2.take p2.length = ([] : List Char) := h
        simp at this
      | cons b y2 =>
        have h2 : c :: x2.take p2.length = b :: y2.take p2.length := h
        injection h2 with h3 h4
        rw [ipo_cc, ipo_cc, h3, ih x2 y2 h4]

/-- The scanner preserves header matches at the head of the text. -/
theorem ipo_subSection_eq (h0 : Char) (htl r0 : List Char) (s : List Char) :
    (h0 :: htl).isPrefixOf (subSection h0 htl ((h0 :: htl) ++ r0) s) =
      (h0 :: htl).isPrefixOf s :=
  ipo_take_congr _ _ _
    (subSection_take h0 htl r0 s.length s (Nat.le_refl _) _ (Nat.le_refl _))

/-- Unfolding equation for the substring test on a cons cell. -/
theorem containsSub_cons (p : List Char) (c : Char) (cs : List Char) :
    containsSub p (c :: cs) = (p.isPrefixOf (c :: cs) || containsSub p cs) := rfl

/-- A pattern occurs in any text that embeds it. -/
theorem containsSub_middle (h0 : Char) (htl b : List Char) :
    ∀ a : List Char, containsSub (h0 :: htl) (a ++ (h0 :: htl) ++ b) = true := by
  intro a
  induction a with
  | nil =>
    rw [List.nil_append, show (h0 :: htl) ++ b = h0 :: (htl ++ b) from rfl,
      containsSub_cons, show h0 :: (htl ++ b) = (h0 :: htl) ++ b from rfl,
      isPrefixOf_append_self, Bool.true_or]
  | cons c a2 ih =>
    rw [show (c :: a2) ++ (h0 :: htl) ++ b = c :: (a2 ++ (h0 :: htl) ++ b) from by simp,
      containsSub_cons, ih, Bool.or_true]

/-- The scanner keeps the header present when it was present. -/
theorem containsSub_subSection (h0 : Char) (htl r0 : List Char) :
    ∀ (n : Nat) (s : List Char), s.length ≤ n → containsSub (h0 :: htl) s = true →
      containsSub (h0 :: htl) (subSection h0 htl ((h0 :: htl) ++ r0) s) = true := by
  intro n
  induction n with
  | zero =>
    intro s h1 hs
    have : s = [] := List.length_eq_zero.1 (Nat.le_zero.1 h1)
    subst this
    simp [containsSub, List.isPrefixOf] at hs
  | succ n ih =>
    intro s h1 hs
    cases s with
    | nil => simp [containsSub, List.isPrefixOf] at hs
    | cons c cs =>
      by_cases h : (h0 :: htl).isPrefixOf (c :: cs) = true
      · rw [subSection_pos h0 htl _ c cs h, List.append_assoc,
          show ((h0 :: htl) ++ (r0 ++ subSection h0 htl ((h0 :: htl) ++ r0)
            (lazySplit ((c :: cs).drop (htl.length + 1))).2)) =
            h0 :: (htl ++ (r0 ++ subSection h0 htl ((h0 :: htl) ++ r0)
              (lazySplit ((c :: cs).drop (htl.length + 1))).2)) from rfl,
          containsSub_cons,
          show h0 :: (htl ++ (r0 ++ subSection h0 htl ((h0 :: htl) ++ r0)
            (lazySplit ((c :: cs).drop (htl.length + 1))).2)) =
            (h0 :: htl) ++ (r0 ++ subSection h0 htl ((h0 :: htl) ++ r0)
              (lazySplit ((c :: cs).drop (htl.length + 1))).2) from rfl,
          isPrefixOf_append_self, Bool.true_or]
      · have hb : (h0 :: htl).isPrefixOf (c :: cs) = false := Bool.eq_false_iff.mpr h
        have hcs : containsSub (h0 :: htl) cs = true := by
          rw [containsSub_cons, hb, Bool.false_or] at hs
          exact hs
        rw [subSection_neg h0 htl _ c cs hb, containsSub_cons,
          ih cs (Nat.succ_le_succ_iff.1 h1) hcs, Bool.or_true]

/-- Scanner step at the replacement itself: the replacement (header, blank
separator, analysis) is matched as one span and re-emitted verbatim when the
remainder is empty or lookahead-shaped. -/
theorem subSection_close (h0 : Char) (htl analysis : List Char)
    (ha : containsSub (toL "\n#") ('\n' :: analysis) = false) (v : List Char)
    (hv : v = [] ∨ ∃ t, v = '\n' :: '#' :: t) :
    subSection h0 htl ((h0 :: htl) ++ toL "\n\n" ++ analysis)
        (((h0 :: htl) ++ toL "\n\n" ++ analysis) ++ v) =
      ((h0 :: htl) ++ toL "\n\n" ++ analysis) ++
        subSection h0 htl ((h0 :: htl) ++ toL "\n\n" ++ analysis) v := by
  have hw : containsSub (toL "\n#") (toL "\n\n" ++ analysis) = false := by
    rw [show toL "\n\n" ++ analysis = '\n' :: '\n' :: analysis from rfl,
      containsSub_cons, ha, Bool.or_false]
    rw [show toL "\n#" = '\n' :: '#' :: ([] : List Char) from rfl, ipo_cc, ipo_cc]
    simp
  have hshape : ((h0 :: htl) ++ toL "\n\n" ++ analysis) ++ v =
      h0 :: (htl ++ (toL "\n\n" ++ analysis ++ v)) := by
    simp
  rw [hshape, subSection_pos h0 htl _ h0 _ (by
    rw [show h0 :: (htl ++ (toL "\n\n" ++ analysis ++ v)) =
      (h0 :: htl) ++ (toL "\n\n" ++ analysis ++ v) from rfl]
    exact isPrefixOf_append_self _ _)]
  rw [show h0 :: (htl ++ (toL "\n\n" ++ analysis ++ v)) =
    (h0 :: htl) ++ (toL "\n\n" ++ analysis ++ v) from rfl]
  rw [show (htl.length + 1) = (h0 :: htl).length from by simp, List.drop_left]
  rw [show toL "\n\n" ++ analysis ++ v = (toL "\n\n" ++ analysis) ++ v from by simp]
  rw [lazySplit_clean _ _ hw hv]

/-- The scanner maps a lookahead-shaped remainder to an empty or
lookahead-shaped text, provided the header contains no newline. -/
theorem subSection_keep_shape (h0 : Char) (htl r0 : List Char)
    (hnl : '\n' ∉ h0 :: htl) (b : List Char)
    (hb : b = [] ∨ ∃ t, b = '\n' :: '#' :: t) :
    subSection h0 htl ((h0 :: htl) ++ r0) b = [] ∨
      ∃ t2, subSection h0 htl ((h0 :: htl) ++ r0) b = '\n' :: '#' :: t2 := by
  rcases hb with rfl | ⟨t, rfl⟩
  · exact Or.inl rfl
  · have h0ne : (h0 == '\n') = false := by
      have : h0 ≠ '\n' := fun h => hnl (h ▸ List.mem_cons_self _ _)
      simpa using this
    have hneg : (h0 :: htl).isPrefixOf ('\n' :: '#' :: t) = false := by
      rw [ipo_cc, h0ne, Bool.false_and]
    rw [subSection_neg h0 htl _ _ _ hneg]
    by_cases h : (h0 :: htl).isPrefixOf ('#' :: t) = true
    · have h0hash : h0 = '#' := by
        rw [ipo_cc, Bool.and_eq_true] at h
        simpa using h.1.symm
      subst h0hash
      rw [subSection_pos '#' htl _ _ _ h]
      exact Or.inr ⟨htl ++ r0 ++ subSection '#' htl (('#' :: htl) ++ r0)
        (lazySplit (('#' :: t).drop (htl.length + 1))).2, by simp⟩
    · rw [subSection_neg h0 htl _ _ _ (Bool.eq_false_iff.mpr h)]
      exact Or.inr ⟨subSection h0 htl ((h0 :: htl) ++ r0) t, rfl⟩

/-- Core of the idempotence argument: on any text the scanner is idempotent
for the section-replacement configuration, provided the header has no
newline and the replacement's analysis part neither begins with `#` nor
contains `\n#`. -/
theorem subSection_idem_aux (h0 : Char) (htl analysis : List Char)
    (hnl : '\n' ∉ h0 :: htl)
    (ha : containsSub (toL "\n#") ('\n' :: analysis) = false) :
    ∀ (n : Nat) (s : List Char), s.length ≤ n →
      subSection h0 htl ((h0 :: htl) ++ toL "\n\n" ++ analysis)
          (subSection h0 htl ((h0 :: htl) ++ toL "\n\n" ++ analysis) s) =
        subSection h0 htl ((h0 :: htl) ++ toL "\n\n" ++ analysis) s := by
  intro n
  induction n with
  | zero =>
    intro s h1
    have hs : s = [] := List.length_eq_zero.1 (Nat.le_zero.1 h1)
    subst hs
    rfl
  | succ n ih =>
    intro s h1
    cases s with
    | nil => rfl
    | cons c cs =>
      by_cases h : (h0 :: htl).isPrefixOf (c :: cs) = true
      · obtain ⟨t, ht⟩ := ipo_exists _ _ h
        have hdrop : (c :: cs).drop (htl.length + 1) = t := by
          rw [ht, show htl.length + 1 = (h0 :: htl).length from by simp, List.drop_left]
        rw [subSection_pos h0 htl _ c cs h, hdrop]
        have hb := lazySplit_snd_shape t
        have hblen : (lazySplit t).2.length ≤ n := by
          have h1b : cs.length ≤ n := Nat.succ_le_succ_iff.1 h1
          have hl1 : (lazySplit t).2.length ≤ t.length := lazySplit_snd_length t
          have hl2 : t.length ≤ cs.length := by
            have : (c :: cs).length = ((h0 :: htl) ++ t).length := by rw [ht]
            simp only [List.length_cons, List.length_append] at this
            omega
          omega
        have hshape := subSection_keep_shape h0 htl (toL "\n\n" ++ analysis) hnl
          (lazySplit t).2 hb
        rw [← List.append_assoc] at hshape
        rw [subSection_close h0 htl analysis ha _ hshape]
        rw [ih (lazySplit t).2 hblen]
      · have hbneg : (h0 :: htl).isPrefixOf (c :: cs) = false := Bool.eq_false_iff.mpr h
        rw [subSection_neg h0 htl _ c cs hbneg]
        have htake : (c :: subSection h0 htl ((h0 :: htl) ++ toL "\n\n" ++ analysis)
            cs).take (h0 :: htl).length = (c :: cs).take (h0 :: htl).length := by
          rw [show (h0 :: htl).length = htl.length + 1 from by simp,
            List.take_succ_cons, List.take_succ_cons]
          have hthis := subSection_take h0 htl (toL "\n\n" ++ analysis) cs.length cs
            (Nat.le_refl _) htl.length (Nat.le_succ _)
          rw [← List.append_assoc] at hthis
          rw [hthis]
        have htest2 : (h0 :: htl).isPrefixOf
            (c :: subSection h0 htl ((h0 :: htl) ++ toL "\n\n" ++ analysis) cs) = false := by
          rw [ipo_take_congr _ _ _ htake, hbneg]
        rw [subSection_neg h0 htl _ _ _ htest2, ih cs (Nat.succ_le_succ_iff.1 h1)]

/-- A newline-free pattern that fails on a text still fails when the text is
extended by newlines. -/
theorem ipo_pad (pad : List Char) (hpad : ∀ x ∈ pad, x = '\n') :
    ∀ s p : List Char, '\n' ∉ p → p.isPrefixOf s = false →
      p.isPrefixOf (s ++ pad) = false := by
  intro s
  induction s with
  | nil =>
    intro p hnp h
    cases p with
    | nil => simp [List.isPrefixOf] at h
    | cons a p2 =>
      cases pad with
      | nil => simp
      | cons x pad2 =>
        have hx : x = '\n' := hpad x (List.mem_cons_self _ _)
        rw [List.nil_append, ipo_cc]
        have hax : (a == x) = false := by
          rw [hx]
          have : a ≠ '\n' := fun hh => hnp (hh ▸ List.mem_cons_self _ _)
          simpa using this
        rw [hax, Bool.false_and]
  | cons b s2 ih =>
    intro p hnp h
    cases p with
    | nil => simp [List.isPrefixOf] at h
    | cons a p2 =>
      rw [List.cons_append, ipo_cc]
      rw [ipo_cc] at h
      by_cases hab : (a == b) = true
      · rw [hab, Bool.true_and] at h ⊢
        exact ih p2 (fun hh => hnp (List.mem_cons_of_mem _ hh)) h
      · rw [Bool.eq_false_iff.mpr hab, Bool.false_and]

/-- A newline-free non-empty pattern never occurs in an all-newline text. -/
theorem containsSub_newlines (p : List Char) (hp : '\n' ∉ p) (hpne : p ≠ []) :
    ∀ pad : List Char, (∀ x ∈ pad, x = '\n') → containsSub p pad = false := by
  intro pad
  induction pad with
  | nil =>
    intro _
    cases p with
    | nil => exact absurd rfl hpne
    | cons a p2 => rfl
  | cons x pad2 ih =>
    intro hpad
    have hx : x = '\n' := hpad x (List.mem_cons_self _ _)
    cases p with
    | nil => exact absurd rfl hpne
    | cons a p2 =>
      rw [containsSub_cons, ipo_cc]
      have hax : (a == x) = false := by
        rw [hx]
        have : a ≠ '\n' := fun hh => hp (hh ▸ List.mem_cons_self _ _)
        simpa using this
      rw [hax, Bool.false_and, Bool.false_or]
      exact ih (fun y hy => hpad y (List.mem_cons_of_mem _ hy))

/-- A newline-free pattern absent from a text stays absent when the text is
padded with newlines. -/
theorem containsSub_pad (pad : List Char) (hpad : ∀ x ∈ pad, x = '\n')
    (p : List Char) (hp : '\n' ∉ p) (hpne : p ≠ []) :
    ∀ s : List Char, containsSub p s = false → containsSub p (s ++ pad) = false := by
  intro s
  induction s with
  | nil =>
    intro _
    rw [List.nil_append]
    exact containsSub_newlines p hp hpne pad hpad
  | cons b s2 ih =>
    intro hcs
    rw [containsSub_cons] at hcs
    obtain ⟨h1, h2⟩ := Bool.or_eq_false_iff.1 hcs
    rw [List.cons_append, containsSub_cons,
      show b :: (s2 ++ pad) = (b :: s2) ++ pad from rfl,
      ipo_pad pad hpad (b :: s2) p hp h1, Bool.false_or]
    exact ih h2

/-- A newline-free pattern failing on a text that ends in a newline cannot
start matching inside that text whatever follows it. -/
theorem ipo_append_ends_nl (X : List Char) :
    ∀ s p : List Char, '\n' ∉ p → s.getLast? = some '\n' →
      p.isPrefixOf s = false → p.isPrefixOf (s ++ X) = false := by
  intro s
  induction s with
  | nil => intro p _ hlast _; simp at hlast
  | cons c s2 ih =>
    intro p hnp hlast hipo
    cases p with
    | nil => simp [List.isPrefixOf] at hipo
    | cons a p2 =>
      rw [List.cons_append, ipo_cc]
      rw [ipo_cc] at hipo
      by_cases hab : (a == c) = true
      · rw [hab, Bool.true_and] at hipo ⊢
        cases s2 with
        | nil =>
          have hc : c = '\n' := by simpa using hlast
          have hac : a = c := by simpa using hab
          have hmem : '\n' ∈ a :: p2 := by
            rw [← hc, ← hac]
            exact List.mem_cons_self a p2
          exact absurd hmem hnp
        | cons d s3 =>
          rw [List.getLast?_cons_cons] at hlast
          exact ih p2 (fun hh => hnp (List.mem_cons_of_mem _ hh)) hlast hipo
      · rw [Bool.eq_false_iff.mpr hab, Bool.false_and]

/-- The scanner copies a region in which no header match can start. -/
theorem subSection_skip (h0 : Char) (htl rep : List Char) :
    ∀ A v : List Char,
      (∀ y, y ≠ [] → y <:+ A → (h0 :: htl).isPrefixOf (y ++ v) = false) →
      subSection h0 htl rep (A ++ v) = A ++ subSection h0 htl rep v := by
  intro A
  induction A with
  | nil => intro v _; rw [List.nil_append, List.nil_append]
  | cons c A2 ih =>
    intro v hy
    have htest : (h0 :: htl).isPrefixOf ((c :: A2) ++ v) = false :=
      hy (c :: A2) (by simp) (List.suffix_refl _)
    rw [List.cons_append,
      subSection_neg h0 htl _ _ _ (by
        rw [show c :: (A2 ++ v) = (c :: A2) ++ v from rfl]
        exact htest)]
    rw [ih v (fun y hy1 hy2 => hy y hy1 (hy2.trans (List.suffix_cons c A2)))]
    rfl

/-- Convert an `endsList` test into an append decomposition. -/
theorem endsList_exists (suf s : List Char) (h : endsList suf s = true) :
    ∃ pre, s = pre ++ suf := by
  unfold endsList at h
  obtain ⟨t, ht⟩ := ipo_exists _ _ h
  refine ⟨t.reverse, ?_⟩
  have h2 := congrArg List.reverse ht
  simpa using h2

/-- The last element of an append with a non-empty right part. -/
theorem getLast?_append_right (l1 l2 : List Char) (h : l2 ≠ []) :
    (l1 ++ l2).getLast? = l2.getLast? := by
  induction l1 with
  | nil => rfl
  | cons a l1' ih =>
    cases hl : l1' ++ l2 with
    | nil => exact absurd (List.append_eq_nil.1 hl).2 h
    | cons b t =>
      rw [List.cons_append, hl, List.getLast?_cons_cons, ← hl, ih]

/-- The scanner fixes a block of the shape `A ++ header ++ blank separator
++ analysis` when the header does not occur in `A` and `A` is empty or ends
in a newline. -/
theorem subSection_append_block (h0 : Char) (htl analysis : List Char)
    (hnl : '\n' ∉ h0 :: htl)
    (ha : containsSub (toL "\n#") ('\n' :: analysis) = false)
    (A : List Char)
    (hAc : containsSub (h0 :: htl) A = false)
    (hAe : A = [] ∨ A.getLast? = some '\n') :
    subSection h0 htl ((h0 :: htl) ++ toL "\n\n" ++ analysis)
        (A ++ ((h0 :: htl) ++ toL "\n\n" ++ analysis)) =
      A ++ ((h0 :: htl) ++ toL "\n\n" ++ analysis) := by
  have hclose : subSection h0 htl ((h0 :: htl) ++ toL "\n\n" ++ analysis)
      ((h0 :: htl) ++ toL "\n\n" ++ analysis) =
      (h0 :: htl) ++ toL "\n\n" ++ analysis := by
    have h2 := subSection_close h0 htl analysis ha [] (Or.inl rfl)
    rw [subSection_nil, List.append_nil] at h2
    exact h2
  rw [subSection_skip h0 htl _ A _ ?_, hclose]
  intro y hy1 hy2
  obtain ⟨pre, hpre⟩ := hy2
  by_cases hipo : (h0 :: htl).isPrefixOf y = true
  · obtain ⟨t2, ht2⟩ := ipo_exists _ _ hipo
    have hocc : containsSub (h0 :: htl) A = true := by
      rw [← hpre, ht2,
        show pre ++ ((h0 :: htl) ++ t2) = pre ++ (h0 :: htl) ++ t2 from by simp]
      exact containsSub_middle h0 htl t2 pre
    rw [hocc] at hAc
    exact absurd hAc (by simp)
  · have hyl : y.getLast? = some '\n' := by
      rcases hAe with rfl | hAe2
      · have : y = [] := List.suffix_nil.1 ⟨pre, hpre⟩
        exact absurd this hy1
      · rw [← getLast?_append_right pre y hy1, hpre]
        exact hAe2
    exact ipo_append_ends_nl _ y (h0 :: htl) hnl hyl (Bool.eq_false_iff.mpr hipo)

/-- Branch equation: publishing into a document that already contains the
header replaces the section via the `re.sub` scan. -/
theorem append_analysis_replace (content : List Char) (h0 : Char)
    (htl analysis : List Char) (h : containsSub (h0 :: htl) content = true) :
    append_analysis content h0 htl analysis =
      subSection h0 htl ((h0 :: htl) ++ toL "\n\n" ++ analysis) content := by
  unfold append_analysis
  rw [if_pos h]

/-- Branch equation: append after a single trailing newline. -/
theorem append_analysis_app1 (content : List Char) (h0 : Char)
    (htl analysis : List Char) (hc : ¬containsSub (h0 :: htl) content = true)
    (h1 : content ≠ [] ∧ endsList (toL "\n\n") content = false)
    (h2 : endsList (toL "\n") content = true) :
    append_analysis content h0 htl analysis =
      content ++ toL "\n" ++ (h0 :: htl) ++ toL "\n\n" ++ analysis := by
  unfold append_analysis
  rw [if_neg hc, if_pos h1, if_pos h2]

/-- Branch equation: append after inserting a full blank line. -/
theorem append_analysis_app2 (content : List Char) (h0 : Char)
    (htl analysis : List Char) (hc : ¬containsSub (h0 :: htl) content = true)
    (h1 : content ≠ [] ∧ endsList (toL "\n\n") content = false)
    (h2 : ¬endsList (toL "\n") content = true) :
    append_analysis content h0 htl analysis =
      content ++ toL "\n\n" ++ (h0 :: htl) ++ toL "\n\n" ++ analysis := by
  unfold append_analysis
  rw [if_neg hc, if_pos h1, if_neg h2]

/-- Branch equation: direct append to an empty document or one already
ending in a blank line. -/
theorem append_analysis_app3 (content : List Char) (h0 : Char)
    (htl analysis : List Char) (hc : ¬containsSub (h0 :: htl) content = true)
    (h1 : ¬(content ≠ [] ∧ endsList (toL "\n\n") content = false)) :
    append_analysis content h0 htl analysis =
      content ++ (h0 :: htl) ++ toL "\n\n" ++ analysis := by
  unfold append_analysis
  rw [if_neg hc, if_neg h1]

/-- Publishing into a document of the shape `A ++ header ++ separator ++
analysis` is the identity under the block conditions. -/
theorem publish_block_idem (h0 : Char) (htl analysis : List Char)
    (hnl : '\n' ∉ h0 :: htl)
    (ha : containsSub (toL "\n#") ('\n' :: analysis) = false)
    (A : List Char)
    (hAc : containsSub (h0 :: htl) A = false)
    (hAe : A = [] ∨ A.getLast? = some '\n') :
    append_analysis (A ++ ((h0 :: htl) ++ toL "\n\n" ++ analysis)) h0 htl analysis =
      A ++ ((h0 :: htl) ++ toL "\n\n" ++ analysis) := by
  have hocc : containsSub (h0 :: htl)
      (A ++ ((h0 :: htl) ++ toL "\n\n" ++ analysis)) = true := by
    rw [show A ++ ((h0 :: htl) ++ toL "\n\n" ++ analysis) =
      A ++ (h0 :: htl) ++ (toL "\n\n" ++ analysis) from by simp]
    exact containsSub_middle h0 htl _ A
  rw [append_analysis_replace _ _ _ _ hocc]
  exact subSection_append_block h0 htl analysis hnl ha A hAc hAe

/-! ## Claim C3 -/

/-- Claim C3 as stated is violated: with header `## H` and the non-empty
analysis text `A\n# B` (which contains a line starting with `#`), publishing
twice into an empty document grows the document instead of reproducing the
single-publish result, because the lazy section span stops at the `\n#`
inside the previously published analysis. -/
theorem c3_publish_not_idempotent_counterexample :
    append_analysis (append_analysis [] '#' (toL "# H") (toL "A\n# B"))
        '#' (toL "# H") (toL "A\n# B") ≠
      append_analysis [] '#' (toL "# H") (toL "A\n# B") := by
  decide

/-- Claim C3 amended: publishing is idempotent for every document provided
the header is non-empty and contains no newline, and the non-empty analysis
text neither begins with `#` nor contains a newline immediately followed by
`#` (no line after the first starting a heading). -/
theorem c3_publish_idempotent_amended (content : List Char) (h0 : Char)
    (htl analysis : List Char) (hnl : '\n' ∉ h0 :: htl) (_hane : analysis ≠ [])
    (ha : containsSub (toL "\n#") ('\n' :: analysis) = false) :
    append_analysis (append_analysis content h0 htl analysis) h0 htl analysis =
      append_analysis content h0 htl analysis := by
  by_cases hc : containsSub (h0 :: htl) content = true
  · rw [append_analysis_replace content h0 htl analysis hc]
    have hcs := containsSub_subSection h0 htl (toL "\n\n" ++ analysis)
      content.length content (Nat.le_refl _) hc
    rw [← List.append_assoc] at hcs
    rw [append_analysis_replace _ h0 htl analysis hcs]
    exact subSection_idem_aux h0 htl analysis hnl ha content.length content
      (Nat.le_refl _)
  · have hcb : containsSub (h0 :: htl) content = false := Bool.eq_false_iff.mpr hc
    by_cases hend : content ≠ [] ∧ endsList (toL "\n\n") content = false
    · by_cases hn1 : endsList (toL "\n") content = true
      · rw [append_analysis_app1 content h0 htl analysis hc hend hn1]
        rw [show content ++ toL "\n" ++ (h0 :: htl) ++ toL "\n\n" ++ analysis =
          (content ++ toL "\n") ++ ((h0 :: htl) ++ toL "\n\n" ++ analysis)
          from by simp]
        refine publish_block_idem h0 htl analysis hnl ha _ ?_ ?_
        · exact containsSub_pad (toL "\n") (by intro x hx; simpa [toL] using hx)
            (h0 :: htl) hnl (by simp) content hcb
        · exact Or.inr (by rw [getLast?_append_right content (toL "\n") (by decide)]; rfl)
      · rw [append_analysis_app2 content h0 htl analysis hc hend hn1]
        rw [show content ++ toL "\n\n" ++ (h0 :: htl) ++ toL "\n\n" ++ analysis =
          (content ++ toL "\n\n") ++ ((h0 :: htl) ++ toL "\n\n" ++ analysis)
          from by simp]
        refine publish_block_idem h0 htl analysis hnl ha _ ?_ ?_
        · exact containsSub_pad (toL "\n\n") (by intro x hx; simpa [toL] using hx)
            (h0 :: htl) hnl (by simp) content hcb
        · exact Or.inr (by rw [getLast?_append_right content (toL "\n\n") (by decide)]; rfl)
    · rw [append_analysis_app3 content h0 htl analysis hc hend]
      rw [show content ++ (h0 :: htl) ++ toL "\n\n" ++ analysis =
        content ++ ((h0 :: htl) ++ toL "\n\n" ++ analysis) from by simp]
      refine publish_block_idem h0 htl analysis hnl ha _ hcb ?_
      by_cases hce : content = []
      · exact Or.inl hce
      · refine Or.inr ?_
        cases hb : endsList (toL "\n\n") content with
        | true =>
          obtain ⟨pre, hpre⟩ := endsList_exists _ _ hb
          rw [hpre, getLast?_append_right pre (toL "\n\n") (by decide)]
          rfl
        | false => exact absurd ⟨hce, hb⟩ hend

/-- Witness for C3 amended at a concrete input: header `## H`, analysis
`ok`, empty document. -/
theorem c3_publish_idempotent_amended_witness :
    append_analysis (append_analysis [] '#' (toL "# H") (toL "ok"))
        '#' (toL "# H") (toL "ok") =
      append_analysis [] '#' (toL "# H") (toL "ok") :=
  c3_publish_idempotent_amended [] '#' (toL "# H") (toL "ok")
    (by decide) (by decide) (by decide)

end GenAnalysis
